import Mathlib

/-!
Verification of the section-reference core of the mcp-policy-server
repository (notation parser, range expansion, embedded-reference scanner,
section extractor, recursive resolver, chunker and format checker).

The TypeScript sources are shallowly embedded: JavaScript strings are Lean
`String`s (operated on through their underlying `List Char`), the regular
expressions of the source are translated to explicit executable matchers
(the relevant patterns are anchored and backtracking-free over their
character classes, so maximal-munch scanning is equivalent), `Map`/`Set`
objects become insertion-ordered association lists, thrown exceptions
become `Except String`, and the file system read by `extractSection`
becomes an explicit `path -> content` association list.  Loops whose
iteration count is data-dependent (the resolver work queue, the global
regex replacements) take an explicit fuel argument and return `none` when
the fuel runs out; the source loops always terminate, and every theorem
about them either holds for all fuel values or evaluates at a
sufficiently large concrete fuel.
-/

/-! ## Character classes used by the source regexes -/

def isUpperAZ (c : Char) : Bool := 'A' ≤ c && c ≤ 'Z'

def isDigitC (c : Char) : Bool := '0' ≤ c && c ≤ '9'

def isDigitDot (c : Char) : Bool := isDigitC c || c = '.'

/-- Backtick character (code 96), written via `Char.ofNat`. -/
def backtick : Char := Char.ofNat 96

/-- JavaScript `\s` (whitespace) restricted to the characters that occur in
policy files: space, tab, carriage return, newline, form feed, vertical tab. -/
def isSpaceC (c : Char) : Bool :=
  c = ' ' || c = '\t' || c = '\r' || c = '\n' || c = Char.ofNat 11 || c = Char.ofNat 12

/-- JavaScript `\w` character class: `[A-Za-z0-9_]`. -/
def isWordC (c : Char) : Bool :=
  isUpperAZ c || ('a' ≤ c && c ≤ 'z') || isDigitC c || c = '_'

/-! ## Generic list/string helpers mirroring JavaScript primitives -/

/-- Split a character list at every occurrence of `sep`
(JavaScript `String.prototype.split` with a single-character separator:
the empty string splits to `[""]`). -/
def splitOnChar (sep : Char) : List Char → List (List Char)
  | [] => [[]]
  | c :: rest =>
    let r := splitOnChar sep rest
    if c = sep then [] :: r
    else
      match r with
      | h :: t => (c :: h) :: t
      | [] => [[c]]

/-- Split a character list at the first `'.'`, returning the parts before and
after it (`none` when there is no dot). -/
def breakAtDot : List Char → Option (List Char × List Char)
  | [] => none
  | c :: rest =>
    if c = '.' then some ([], rest)
    else
      match breakAtDot rest with
      | some (a, b) => some (c :: a, b)
      | none => none

/-- Maximal run of decimal digits at the front of a character list. -/
def takeDigits : List Char → List Char × List Char
  | [] => ([], [])
  | c :: rest =>
    if isDigitC c then
      let (d, r) := takeDigits rest
      (c :: d, r)
    else ([], c :: rest)

/-- JavaScript `String.prototype.startsWith`. -/
def jsStartsWith (s pre : String) : Bool := pre.data.isPrefixOf s.data

/-- Association-list lookup (JavaScript `Map.prototype.get` /
object property access over string keys). -/
def assocFind (m : List (String × String)) (k : String) : Option String :=
  match m.find? (fun p => p.1 = k) with
  | some p => some p.2
  | none => none

/-- Decimal value of a digit string
(JavaScript `parseInt(s, 10)` on all-digit input). -/
def parseIntDec (ds : List Char) : Nat :=
  ds.foldl (fun a c => a * 10 + (c.toNat - 48)) 0

/-- Decimal digit character. -/
def digitChar (d : Nat) : Char := Char.ofNat (48 + d)

/-- Decimal digits of `n`, fuel-driven so that it reduces definitionally. -/
def natToDigits : Nat → Nat → List Char
  | 0, _ => []
  | fuel + 1, n =>
    if n < 10 then [digitChar n]
    else natToDigits fuel (n / 10) ++ [digitChar (n % 10)]

/-- Decimal representation of `n`
(JavaScript template interpolation of an integer). -/
def natToString (n : Nat) : String := ⟨natToDigits (n + 1) n⟩

/-! ## Notation parser (src parser.ts)

`SECTION_NOTATION_PATTERN = /^([A-Z][A-Z0-9]*(?:-[A-Z][A-Z0-9]*)*)\.([0-9.]+)$/`.
The prefix class cannot contain a dot, so a match decomposes the input at its
first dot; the matchers below use that decomposition. -/

/-- One hyphen-separated prefix segment: `[A-Z][A-Z0-9]*`. -/
def prefixSegOk (cs : List Char) : Bool :=
  match cs with
  | [] => false
  | c :: rest => isUpperAZ c && rest.all (fun d => isUpperAZ d || isDigitC d)

/-- The prefix grammar `[A-Z][A-Z0-9]*(?:-[A-Z][A-Z0-9]*)*`. -/
def validPrefixCore (cs : List Char) : Bool :=
  (splitOnChar '-' cs).all prefixSegOk

def validPrefix (s : String) : Bool := validPrefixCore s.data

/-- Match of `SECTION_NOTATION_PATTERN` against the input with the leading `§`
removed: prefix before the first dot, then a nonempty run of `[0-9.]`. -/
def matchSectionNota (cs : List Char) : Option (List Char × List Char) :=
  match breakAtDot cs with
  | some (p, rest) =>
    if validPrefixCore p && !rest.isEmpty && rest.all isDigitDot then some (p, rest)
    else none
  | none => none

/-- ParsedSection of src types.ts.  Source field names `prefix` and `section`
are rendered as `pfx` and `sectionNum` (both clash with Lean keywords). -/
structure ParsedSection where
  pfx : String
  sectionNum : String
  file : Option String
deriving DecidableEq, Repr

/-- parseSectionNotation of src parser.ts: validates the `§` marker and the
notation grammar and optionally resolves the prefix through a file map. -/
def parseSectionNota (input : String) (fileMap : Option (List (String × String))) :
    Except String ParsedSection :=
  if !jsStartsWith input "§" then
    .error ("Invalid section notation: \"" ++ input ++
      "\". Must start with § symbol (e.g., §APP.7, §META.5)")
  else
    match matchSectionNota input.data.tail with
    | none =>
      .error ("Invalid section notation: \"" ++ input ++
        "\". Expected format: §[PREFIX].[NUMBER] (e.g., §APP.7, §META.5.2)")
    | some (p, sec) =>
      match fileMap with
      | some m =>
        match assocFind m ⟨p⟩ with
        | some f =>
          if f = "" then
            .error ("Unknown prefix: " ++ (⟨p⟩ : String) ++ ". Valid prefixes: " ++
              String.intercalate ", " (m.map Prod.fst))
          else .ok ⟨⟨p⟩, ⟨sec⟩, some f⟩
        | none =>
          .error ("Unknown prefix: " ++ (⟨p⟩ : String) ++ ". Valid prefixes: " ++
            String.intercalate ", " (m.map Prod.fst))
      | none => .ok ⟨⟨p⟩, ⟨sec⟩, none⟩

/-! ## Range expansion (src parser.ts, expandRange)

`FULL_RANGE_PATTERN  = /^(PFX)\.(\d+)\.(\d+)-\2\.(\d+)$/`
`SHORT_RANGE_PATTERN = /^(PFX)\.(\d+)\.(\d+)-(\d+)$/`
`WHOLE_SECTION_RANGE_PATTERN = /^(PFX)\.(\d+)-(\d+)$/`
where PFX is the prefix grammar above.  In each case the prefix is the part
before the first dot and the rest decomposes uniquely because `\d+` runs are
separated by non-digit literals. -/

/-- Match `FULL_RANGE_PATTERN` after the `§`: returns (prefix, major, start,
end); the back-reference `\2` forces the repeated major to be the same digit
string. -/
def matchFullRange (cs : List Char) : Option (List Char × List Char × List Char × List Char) :=
  match breakAtDot cs with
  | none => none
  | some (p, rest) =>
    if !validPrefixCore p then none
    else
      let (a, r1) := takeDigits rest
      match r1 with
      | '.' :: r2 =>
        let (b, r3) := takeDigits r2
        match r3 with
        | '-' :: r4 =>
          let (c, r5) := takeDigits r4
          match r5 with
          | '.' :: r6 =>
            let (d, r7) := takeDigits r6
            if !a.isEmpty && !b.isEmpty && !d.isEmpty && r7.isEmpty && c = a then
              some (p, a, b, d)
            else none
          | _ => none
        | _ => none
      | _ => none

/-- Match `SHORT_RANGE_PATTERN` after the `§`: (prefix, major, start, end). -/
def matchShortRange (cs : List Char) : Option (List Char × List Char × List Char × List Char) :=
  match breakAtDot cs with
  | none => none
  | some (p, rest) =>
    if !validPrefixCore p then none
    else
      let (a, r1) := takeDigits rest
      match r1 with
      | '.' :: r2 =>
        let (b, r3) := takeDigits r2
        match r3 with
        | '-' :: r4 =>
          let (c, r5) := takeDigits r4
          if !a.isEmpty && !b.isEmpty && !c.isEmpty && r5.isEmpty then some (p, a, b, c)
          else none
        | _ => none
      | _ => none

/-- Match `WHOLE_SECTION_RANGE_PATTERN` after the `§`: (prefix, start, end). -/
def matchWholeRange (cs : List Char) : Option (List Char × List Char × List Char) :=
  match breakAtDot cs with
  | none => none
  | some (p, rest) =>
    if !validPrefixCore p then none
    else
      let (a, r1) := takeDigits rest
      match r1 with
      | '-' :: r2 =>
        let (b, r3) := takeDigits r2
        if !a.isEmpty && !b.isEmpty && r3.isEmpty then some (p, a, b)
        else none
      | _ => none

/-- The inclusive integer walk `for (let i = start; i <= end; i++)`:
empty when `start > end`. -/
def rangeWalk (s e : Nat) : List Nat :=
  if s ≤ e then (List.range (e + 1 - s)).map (fun k => s + k) else []

/-- expandRange of src parser.ts: tries the three range patterns in order and
falls through to a one-element list on any non-range input. -/
def expandRange (input : String) : Except String (List String) :=
  if !jsStartsWith input "§" then
    .error ("Invalid section notation: \"" ++ input ++
      "\". Must start with § symbol (e.g., §APP.7, §APP.4.1-3)")
  else
    let w := input.data.tail
    match matchFullRange w with
    | some (p, major, s, e) =>
      .ok ((rangeWalk (parseIntDec s) (parseIntDec e)).map
        (fun i => "§" ++ (⟨p⟩ : String) ++ "." ++ (⟨major⟩ : String) ++ "." ++ natToString i))
    | none =>
      match matchShortRange w with
      | some (p, major, s, e) =>
        .ok ((rangeWalk (parseIntDec s) (parseIntDec e)).map
          (fun i => "§" ++ (⟨p⟩ : String) ++ "." ++ (⟨major⟩ : String) ++ "." ++ natToString i))
      | none =>
        match matchWholeRange w with
        | some (p, s, e) =>
          .ok ((rangeWalk (parseIntDec s) (parseIntDec e)).map
            (fun i => "§" ++ (⟨p⟩ : String) ++ "." ++ natToString i))
        | none => .ok [input]

/-! ## Parent test and ordering (src parser.ts) -/

/-- First index of `c`, if any. -/
def findIdxChar (c : Char) : List Char → Option Nat
  | [] => none
  | d :: rest => if d = c then some 0 else (findIdxChar c rest).map (· + 1)

/-- JavaScript `String.prototype.indexOf` for a single character. -/
def jsIndexOfChar (s : String) (c : Char) : Int :=
  match findIdxChar c s.data with
  | some i => (i : Int)
  | none => -1

/-- Clamp an index into `[0, n]` (and convert to `Nat`). -/
def intClamp (x n : Int) : Nat :=
  if x < 0 then 0 else if n < x then n.toNat else x.toNat

/-- JavaScript `String.prototype.substring` with its clamp-and-swap
semantics (negative indices clamp to 0, arguments swap when reversed). -/
def jsSubstring (s : String) (a b : Int) : String :=
  let n : Int := s.data.length
  let a' := intClamp a n
  let b' := intClamp b n
  let lo := if a' ≤ b' then a' else b'
  let hi := if a' ≤ b' then b' else a'
  ⟨(s.data.take hi).drop lo⟩

/-- isParentSection of src parser.ts: prefixes (between `§` and the first
dot) must agree and B must extend A by a dot-separated suffix. -/
def isParentSection (sectionA sectionB : String) : Bool :=
  if jsSubstring sectionA 1 (jsIndexOfChar sectionA '.') ≠
      jsSubstring sectionB 1 (jsIndexOfChar sectionB '.') then false
  else jsStartsWith sectionB (sectionA ++ ".")

/-! ## Sorting (src parser.ts, sortSections)

The source compares prefixes with `localeCompare`; on the prefix alphabet
`[A-Z0-9-]` the default-locale collation coincides with code-unit order, so
it is embedded as ordinal comparison.  Path components are produced by
`split('.').map(Number)`; on the digit strings arising in section paths
`Number` is decimal parsing, `Number('')` is 0 and any other component is
`NaN` (modelled as `none`).  A comparator returning `NaN` is treated as 0 by
`Array.prototype.sort` (ES `SortCompare`), which is how the `none` branches
below behave. -/

def ordCompareChars : List Char → List Char → Int
  | [], [] => 0
  | [], _ :: _ => -1
  | _ :: _, [] => 1
  | a :: as, b :: bs =>
    if a.toNat < b.toNat then -1
    else if b.toNat < a.toNat then 1
    else ordCompareChars as bs

/-- JavaScript `Number()` on a section-path component. -/
def jsNumOfPart (cs : List Char) : Option Int :=
  if cs.isEmpty then some 0
  else if cs.all isDigitC then some (parseIntDec cs) else none

/-- The component loop of the sortSections comparator: missing components
default to 0 (`aSection[i] ?? 0`), a pair involving `NaN` satisfies `!==`
and returns `NaN` (treated as 0 by the sort). -/
def comparePadZero : List (Option Int) → Int
  | [] => 0
  | b :: bs =>
    match b with
    | some y => if y ≠ 0 then -y else comparePadZero bs
    | none => 0

def compareZeroPad : List (Option Int) → Int
  | [] => 0
  | a :: as =>
    match a with
    | some x => if x ≠ 0 then x else compareZeroPad as
    | none => 0

def comparePathParts : List (Option Int) → List (Option Int) → Int
  | [], bs => comparePadZero bs
  | a :: as, [] => compareZeroPad (a :: as)
  | a :: as, b :: bs =>
    match a, b with
    | some x, some y => if x ≠ y then x - y else comparePathParts as bs
    | _, _ => 0

/-- Path components of a section notation, as consumed by the comparator:
everything after `§PREFIX.` split on dots and passed through `Number`. -/
def sectionPathParts (a : String) : List (Option Int) :=
  let aEnd := jsIndexOfChar a '.'
  (splitOnChar '.' (jsSubstring a (aEnd + 1) (a.data.length : Int)).data).map jsNumOfPart

/-- The sortSections comparator of src parser.ts. -/
def sectionCompare (a b : String) : Int :=
  let aEnd := jsIndexOfChar a '.'
  let bEnd := jsIndexOfChar b '.'
  let aPrefix := jsSubstring a 1 aEnd
  let bPrefix := jsSubstring b 1 bEnd
  let pc := ordCompareChars aPrefix.data bPrefix.data
  if pc ≠ 0 then pc
  else comparePathParts (sectionPathParts a) (sectionPathParts b)

/-- Stable insertion respecting the comparator (JavaScript `Array.sort`
is stable; ties keep their original relative order). -/
def orderedInsert (x : String) : List String → List String
  | [] => [x]
  | y :: ys => if sectionCompare y x ≤ 0 then y :: orderedInsert x ys else x :: y :: ys

/-- sortSections of src parser.ts, embedded as a stable sort by
`sectionCompare`. -/
def sortSections (refs : List String) : List String :=
  refs.foldl (fun acc x => orderedInsert x acc) []

/-! ## Embedded-reference scanning (src parser.ts)

`findEmbeddedReferences` first deletes fenced code blocks with one global
regex replacement per tick count from 10 down to 3
(pattern ```` ``` ````-times-n `[^\n]*\n[\s\S]*?(?:\n` ticks `|$)`), then
deletes inline code spans, then collects `SECTION_ID_PATTERN` matches and
prefix-only matches. -/

def ticksList (n : Nat) : List Char := List.replicate n backtick

/-- Earliest index whose suffix satisfies `p` (used for the lazy
`[\s\S]*?` search). -/
def findSuffixIdx (p : List Char → Bool) : List Char → Option Nat
  | [] => if p [] then some 0 else none
  | c :: rest =>
    if p (c :: rest) then some 0
    else (findSuffixIdx p rest).map (· + 1)

/-- Length of the fence-pattern match beginning at the head of `s`
(`none` when the pattern does not match here: no opener run or no newline
after the opener line). -/
def fenceMatchLen (tick : Nat) (s : List Char) : Option Nat :=
  if (ticksList tick).isPrefixOf s then
    match (s.drop tick).findIdx? (fun c => c = '\n') with
    | none => none
    | some j =>
      let bodyStart := tick + j + 1
      match findSuffixIdx (fun t => ('\n' :: ticksList tick).isPrefixOf t) (s.drop bodyStart) with
      | some r => some (bodyStart + r + 1 + tick)
      | none => some s.length
  else none

/-- Leftmost fence-pattern match: start position and length. -/
def findFenceStart (tick : Nat) : List Char → Option (Nat × Nat)
  | [] => none
  | c :: rest =>
    match fenceMatchLen tick (c :: rest) with
    | some len => some (0, len)
    | none => (findFenceStart tick rest).map (fun pl => (pl.1 + 1, pl.2))

/-- Global replacement of the fence pattern by the empty string
(fuel-driven; every match consumes at least one character). -/
def replaceFences (tick : Nat) : Nat → List Char → List Char
  | 0, s => s
  | fuel + 1, s =>
    match findFenceStart tick s with
    | none => s
    | some (pos, len) => s.take pos ++ replaceFences tick fuel (s.drop (pos + len))

/-- The tick-count loop `for (let tickCount = 10; tickCount >= 3; tickCount--)`. -/
def removeFencedBlocks (s : List Char) : List Char :=
  [10, 9, 8, 7, 6, 5, 4, 3].foldl (fun acc t => replaceFences t (acc.length + 1) acc) s

/-- Global replacement of inline code spans `` `[^`]*` ``. -/
def removeInlineCode : Nat → List Char → List Char
  | 0, s => s
  | fuel + 1, s =>
    match s.findIdx? (fun c => c = backtick) with
    | none => s
    | some i =>
      match (s.drop (i + 1)).findIdx? (fun c => c = backtick) with
      | none => s
      | some j => s.take i ++ removeInlineCode fuel (s.drop (i + 1 + j + 1))

/-- Maximal run of `[A-Z0-9]`. -/
def takeAlnum : List Char → List Char × List Char
  | [] => ([], [])
  | c :: rest =>
    if isUpperAZ c || isDigitC c then
      let (a, r) := takeAlnum rest
      (c :: a, r)
    else ([], c :: rest)

/-- The `(?:-[A-Z][A-Z0-9]*)*` tail of the prefix grammar (maximal munch;
fuel-driven, each iteration consumes at least two characters). -/
def takePrefixSegs : Nat → List Char → List Char × List Char
  | 0, s => ([], s)
  | fuel + 1, s =>
    match s with
    | '-' :: c :: rest =>
      if isUpperAZ c then
        let (a, r1) := takeAlnum rest
        let (more, r2) := takePrefixSegs fuel r1
        ('-' :: c :: (a ++ more), r2)
      else ([], s)
    | _ => ([], s)

/-- Maximal-munch match of the prefix grammar at the head of `s`.  The
grammar is followed by a literal that no prefix character can satisfy in
every pattern that uses it, so maximal munch is equivalent to the regex
with backtracking. -/
def takePfx (s : List Char) : Option (List Char × List Char) :=
  match s with
  | [] => none
  | c :: rest =>
    if isUpperAZ c then
      let (a, r1) := takeAlnum rest
      let (more, r2) := takePrefixSegs r1.length r1
      some (c :: (a ++ more), r2)
    else none

/-- The `(?:\.\d+)*` tail of a numeric path (maximal munch, fuel-driven). -/
def takeDotDigits : Nat → List Char → List Char × List Char
  | 0, s => ([], s)
  | fuel + 1, s =>
    match s with
    | '.' :: rest =>
      let (d, r) := takeDigits rest
      if d.isEmpty then ([], s)
      else
        let (more, r2) := takeDotDigits fuel r
        ('.' :: (d ++ more), r2)
    | _ => ([], s)

/-- Maximal-munch match of `\d+(?:\.\d+)*`. -/
def takeNumPath (s : List Char) : Option (List Char × List Char) :=
  let (d, r) := takeDigits s
  if d.isEmpty then none
  else
    let (more, r2) := takeDotDigits r.length r
    some (d ++ more, r2)

/-- Match of `SECTION_ID_PATTERN` immediately after a `§`: prefix, dot,
numeric path, optional `-`-range tail.  Returns the matched characters
(without the `§`) and the remaining input. -/
def matchSectionIdAt (s : List Char) : Option (List Char × List Char) :=
  match takePfx s with
  | none => none
  | some (p, r1) =>
    match r1 with
    | '.' :: r2 =>
      match takeNumPath r2 with
      | none => none
      | some (num, r3) =>
        match r3 with
        | '-' :: r4 =>
          match takeNumPath r4 with
          | some (num2, r5) => some (p ++ '.' :: num ++ '-' :: num2, r5)
          | none => some (p ++ '.' :: num, r3)
        | _ => some (p ++ '.' :: num, r3)
    | _ => none

/-- Collect all `SECTION_ID_PATTERN` matches (global exec: scanning resumes
after each match). -/
def scanSectionIds : Nat → List Char → List String
  | 0, _ => []
  | fuel + 1, s =>
    match s with
    | [] => []
    | c :: rest =>
      if c = '§' then
        match matchSectionIdAt rest with
        | some (m, r) => ("§" ++ (⟨m⟩ : String)) :: scanSectionIds fuel r
        | none => scanSectionIds fuel rest
      else scanSectionIds fuel rest

/-- Collect all prefix-only matches `§PFX(?![.\w-])`, excluding `END`. -/
def scanPrefixOnly : Nat → List Char → List String
  | 0, _ => []
  | fuel + 1, s =>
    match s with
    | [] => []
    | c :: rest =>
      if c = '§' then
        match takePfx rest with
        | some (p, r) =>
          if (match r with
              | [] => true
              | d :: _ => !(d = '.' || isWordC d || d = '-')) then
            if (⟨p⟩ : String) = "END" then scanPrefixOnly fuel r
            else ("§" ++ (⟨p⟩ : String)) :: scanPrefixOnly fuel r
          else scanPrefixOnly fuel rest
        | none => scanPrefixOnly fuel rest
      else scanPrefixOnly fuel rest

/-- findEmbeddedReferences of src parser.ts. -/
def findEmbeddedReferences (content : String) : List String :=
  let cleaned := removeInlineCode (content.data.length + 1) (removeFencedBlocks content.data)
  scanSectionIds (cleaned.length + 1) cleaned ++ scanPrefixOnly (cleaned.length + 1) cleaned

/-! ## Section extraction (src parser.ts, extractSection / extractRange)

`extractSection` reads the file, splits it into lines, and scans with
`extractRange`.  The file system is passed in explicitly as a
`path -> content` association list.  Fence tracking inside `extractRange`
is `if (/^```/.test(line)) inCodeBlock = !inCodeBlock;` — a plain toggle on
any line starting with three backticks. -/

/-- The line-scanning loop of extractRange: find the start line, then
collect lines, toggling fence state and breaking on a stop line only
outside a (toggled) fence. -/
def extractRangeLoop (startP stopP : String → Bool) :
    List String → Bool → Bool → List String → List String
  | [], _, _, acc => acc
  | line :: rest, inRange, inCode, acc =>
    if !inRange && startP line then extractRangeLoop startP stopP rest true inCode (acc ++ [line])
    else if inRange then
      let inCode' := if jsStartsWith line "```" then !inCode else inCode
      if !inCode' && stopP line then acc
      else extractRangeLoop startP stopP rest true inCode' (acc ++ [line])
    else extractRangeLoop startP stopP rest false inCode acc

/-- extractRange of src parser.ts. -/
def extractRange (lines : List String) (startP stopP : String → Bool) : String :=
  String.intercalate "\n" (extractRangeLoop startP stopP lines false false [])

/-- Start pattern for a subsection: `^###? \{§PFX\.NUM\}` (prefix match). -/
def subStartP (pfx num : String) (line : String) : Bool :=
  jsStartsWith line ("## \x7b§" ++ pfx ++ "." ++ num ++ "\x7d") ||
  jsStartsWith line ("### \x7b§" ++ pfx ++ "." ++ num ++ "\x7d")

/-- `SECTION_MARKER_PATTERN = /^##?#? \{§/`: one to three hashes, a space,
then `{§`. -/
def sectionMarkerP (line : String) : Bool :=
  jsStartsWith line "# \x7b§" || jsStartsWith line "## \x7b§" || jsStartsWith line "### \x7b§"

/-- Start pattern for a whole section: `^## \{§PFX\.NUM\}` (prefix match). -/
def topStartP (pfx num : String) (line : String) : Bool :=
  jsStartsWith line ("## \x7b§" ++ pfx ++ "." ++ num ++ "\x7d")

/-- Stop pattern for a whole section: `^## \{§PFX\.[0-9]|^\{§END\}`. -/
def topStopP (pfx : String) (line : String) : Bool :=
  (jsStartsWith line ("## \x7b§" ++ pfx ++ ".") &&
    (match line.data.drop ("## \x7b§" ++ pfx ++ ".").data.length with
     | c :: _ => isDigitC c
     | [] => false)) ||
  jsStartsWith line "\x7b§END\x7d"

/-- Lines of a string (JavaScript `content.split('\n')`). -/
def splitLines (content : String) : List String :=
  (splitOnChar '\n' content.data).map (fun cs => (⟨cs⟩ : String))

/-- extractSection of src parser.ts over an explicit file map. -/
def extractSection (fsMap : List (String × String)) (filePath pfx sectionNum : String) :
    Except String String :=
  match assocFind fsMap filePath with
  | none => .error ("ENOENT: no such file or directory, open '" ++ filePath ++ "'")
  | some content =>
    let lines := splitLines content
    if sectionNum.data.contains '.' then
      .ok (extractRange lines (subStartP pfx sectionNum) sectionMarkerP)
    else
      .ok (extractRange lines (topStartP pfx sectionNum) (topStopP pfx))

/-! ## Resolver (src resolver.ts) -/

/-- GatheredSection of src types.ts (fields `prefix`/`section` rendered as
`pfx`/`sectionNum`). -/
structure GatheredSection where
  pfx : String
  sectionNum : String
  file : String
  content : String
deriving DecidableEq, Repr

/-- The two maps of SectionIndex (src types.ts) that resolution reads;
the file-metadata and statistics fields play no role in the claims. -/
structure SectionIndex where
  sectionMap : List (String × String)
  duplicates : List (String × List String)
deriving DecidableEq, Repr

def dupFind (d : List (String × List String)) (k : String) : Option (List String) :=
  match d.find? (fun p => p.1 = k) with
  | some p => some p.2
  | none => none

/-- resolveSection of src resolver.ts: duplicates first, then the lookup
map (a falsy — empty — path is treated as missing, as `if (!filePath)`
does). -/
def resolveSection (sec : String) (index : SectionIndex) : Except String String :=
  match dupFind index.duplicates sec with
  | some files =>
    .error ("Section " ++ sec ++ " found in multiple files:\n" ++
      String.intercalate "\n" (files.map (fun f => "  - " ++ f)) ++
      "\nPlease remove duplicates to resolve this section.")
  | none =>
    match assocFind index.sectionMap sec with
    | some f =>
      if f = "" then .error ("Section " ++ sec ++ " not found in policy files")
      else .ok f
    | none => .error ("Section " ++ sec ++ " not found in policy files")

/-- JavaScript `String.prototype.trim`. -/
def jsTrim (s : String) : String :=
  ⟨(s.data.dropWhile isSpaceC).reverse.dropWhile isSpaceC |>.reverse⟩

/-- resolveSectionWithContent of src resolver.ts. -/
def resolveSectionWithContent (sec : String) (index : SectionIndex)
    (fsMap : List (String × String)) : Except String String := do
  let filePath ← resolveSection sec index
  let parsed ← parseSectionNota sec none
  let content ← extractSection fsMap filePath parsed.pfx parsed.sectionNum
  if content = "" || (jsTrim content).data.length = 0 then
    .error ("Section \"" ++ sec ++ "\" not found. Verify the section exists with marker \"## \x7b" ++
      sec ++ "\x7d\" or \"### \x7b" ++ sec ++ "\x7d\".")
  else pure content

/-- `path.relative(baseDir, filePath)` for the only shape that occurs here:
a file directly under the base directory. -/
def jsPathRelative (baseDir filePath : String) : String :=
  if jsStartsWith filePath (baseDir ++ "/") then ⟨filePath.data.drop (baseDir.data.length + 1)⟩
  else filePath

/-- `PREFIX_ONLY_PATTERN = /^§([A-Z][A-Z0-9]*(?:-[A-Z][A-Z0-9]*)*)$/`. -/
def prefixOnlyMatch (s : String) : Option String :=
  match s.data with
  | '§' :: rest => if validPrefixCore rest then some ⟨rest⟩ else none
  | _ => none

/-- expandSectionsWithIndex of src handlers.ts: a prefix-only wildcard
expands to every indexed section with that prefix and is an error when
there is none; anything else goes through expandRange. -/
def expandSectionsWithIndex (sections : List String) (index : SectionIndex) :
    Except String (List String) :=
  match sections with
  | [] => .ok []
  | s :: rest => do
    let here ←
      match prefixOnlyMatch s with
      | some p =>
        let matching := (index.sectionMap.map Prod.fst).filter
          (fun sec => jsStartsWith sec ("§" ++ p ++ "."))
        if matching.isEmpty then .error ("No sections found for prefix: " ++ p)
        else pure matching
      | none => expandRange s
    let there ← expandSectionsWithIndex rest index
    pure (here ++ there)

/-- The embedded-reference expansion step inside gatherSectionsWithIndex:
prefix-only references expand through the index with no empty check. -/
def expandEmbedded (refs : List String) (index : SectionIndex) :
    Except String (List String) :=
  match refs with
  | [] => .ok []
  | r :: rest => do
    let here ←
      match prefixOnlyMatch r with
      | some p =>
        pure ((index.sectionMap.map Prod.fst).filter
          (fun sec => jsStartsWith sec ("§" ++ p ++ ".")))
      | none => expandRange r
    let there ← expandEmbedded rest index
    pure (here ++ there)

/-- A work-queue entry: the reference and its provenance. -/
structure QItem where
  ref : String
  referredBy : Option String
deriving DecidableEq, Repr

def refContext : Option String → String
  | some r => " (referenced by " ++ r ++ ")"
  | none => ""

/-- The while loop of gatherSectionsWithIndex (src resolver.ts).  State:
work queue, processed set (insertion-ordered), gathered map
(insertion-ordered association list), collected lenient-mode warnings.
Fuel exhaustion gives `none`; a thrown error gives `some (.error _)`. -/
def gatherAux (fsMap : List (String × String)) (index : SectionIndex)
    (baseDir : String) (lenient : Bool) :
    Nat → List QItem → List String → List (String × GatheredSection) → List String →
    Option (Except String (List (String × GatheredSection) × List String))
  | 0, _, _, _, _ => none
  | _ + 1, [], _, gathered, warnings => some (.ok (gathered, warnings))
  | fuel + 1, item :: queue, processed, gathered, warnings =>
    let n := item.ref
    if processed.contains n then
      gatherAux fsMap index baseDir lenient fuel queue processed gathered warnings
    else if processed.any (fun ex => isParentSection ex n) then
      gatherAux fsMap index baseDir lenient fuel queue processed gathered warnings
    else
      let processed1 := (processed.filter (fun ex => !isParentSection n ex)) ++ [n]
      let gathered1 := gathered.filter (fun kv => !isParentSection n kv.1)
      match parseSectionNota n none with
      | .error e =>
        let msg := "Invalid section notation \"" ++ n ++ "\"" ++ refContext item.referredBy ++
          ": " ++ e
        if lenient then
          gatherAux fsMap index baseDir lenient fuel queue processed1 gathered1 (warnings ++ [msg])
        else some (.error msg)
      | .ok parsed =>
        match resolveSection n index >>= fun fp =>
              (resolveSectionWithContent n index fsMap).map (fun c => (fp, c)) with
        | .error e =>
          let msg := "Failed to resolve section \"" ++ n ++ "\"" ++ refContext item.referredBy ++
            ": " ++ e
          if lenient then
            gatherAux fsMap index baseDir lenient fuel queue processed1 gathered1 (warnings ++ [msg])
          else some (.error msg)
        | .ok (fp, content) =>
          let file := jsPathRelative baseDir fp
          let gathered2 := gathered1 ++ [(n, ⟨parsed.pfx, parsed.sectionNum, file, content⟩)]
          match expandEmbedded (findEmbeddedReferences content) index with
          | .error e => some (.error e)
          | .ok expanded =>
            let queue2 := expanded.foldl (fun q r =>
              if !processed1.contains r && !(q.any (fun it => it.ref = r)) then
                q ++ [⟨r, some n⟩]
              else q) queue
            gatherAux fsMap index baseDir lenient fuel queue2 processed1 gathered2 warnings

/-- gatherSectionsWithIndex of src resolver.ts (strict/lenient selected by
the `lenient` flag; warnings accumulate in place of the callback). -/
def gatherSectionsWithIndex (initialSections : List String) (index : SectionIndex)
    (fsMap : List (String × String)) (baseDir : String) (lenient : Bool) (fuel : Nat) :
    Option (Except String (List (String × GatheredSection) × List String)) :=
  gatherAux fsMap index baseDir lenient fuel
    (initialSections.map (fun s => ⟨s, none⟩)) [] [] []

def gAssoc (g : List (String × GatheredSection)) (k : String) : Option GatheredSection :=
  match g.find? (fun p => p.1 = k) with
  | some p => some p.2
  | none => none

/-- fetchSectionsWithIndex of src resolver.ts: gather, sort the keys,
join the contents with newlines. -/
def fetchSectionsWithIndex (sections : List String) (index : SectionIndex)
    (fsMap : List (String × String)) (baseDir : String) (fuel : Nat) :
    Option (Except String String) :=
  match gatherSectionsWithIndex sections index fsMap baseDir false fuel with
  | none => none
  | some (.error e) => some (.error e)
  | some (.ok (gathered, _)) =>
    let sorted := sortSections (gathered.map Prod.fst)
    some (.ok (String.intercalate "\n" (sorted.filterMap
      (fun nt => (gAssoc gathered nt).map (fun g => g.content)))))

/-! ## Chunker (src handlers.ts) -/

structure ChunkResult where
  content : String
  hasMore : Bool
  continuation : Option String
deriving DecidableEq, Repr

/-- estimateTokens of src handlers.ts: `Math.ceil(text.length / 4)`. -/
def estimateTokens (text : String) : Nat := (text.data.length + 3) / 4

/-- Match of the chunk-boundary pattern
`/^## \{§[A-Z]+(?:-[A-Z]+)*\.\d+(?:\.\d+)?\}/` at the head of `s`
(note: letters-only prefix segments and at most two path components,
unlike the other section patterns). -/
def chunkHeaderAt (s : List Char) : Bool :=
  match s with
  | '#' :: '#' :: ' ' :: '\x7b' :: '§' :: r0 =>
    let (seg, r1) := r0.span isUpperAZ
    if seg.isEmpty then false
    else
      let (_, r2) := takeUpperSegs r1.length r1
      match r2 with
      | '.' :: r3 =>
        let (d1, r4) := takeDigits r3
        if d1.isEmpty then false
        else
          match r4 with
          | '\x7d' :: _ => true
          | '.' :: r5 =>
            let (d2, r6) := takeDigits r5
            if d2.isEmpty then false
            else
              match r6 with
              | '\x7d' :: _ => true
              | _ => false
          | _ => false
      | _ => false
  | _ => false
where
  /-- The `(?:-[A-Z]+)*` tail (maximal munch, fuel-driven). -/
  takeUpperSegs : Nat → List Char → List Char × List Char
    | 0, s => ([], s)
    | fuel + 1, s =>
      match s with
      | '-' :: c :: rest =>
        if isUpperAZ c then
          let (a, r1) := (c :: rest).span isUpperAZ
          let (more, r2) := takeUpperSegs fuel r1
          ('-' :: (a ++ more), r2)
        else ([], s)
      | _ => ([], s)

/-- The section-boundary split of chunkContent: pieces delimited by
line-start chunk headers; a leading headerless piece is kept, pieces are
never empty. -/
def splitSectionsAux : List Char → Bool → List Char → List (List Char)
  | [], _, cur => if cur.isEmpty then [] else [cur.reverse]
  | c :: rest, atStart, cur =>
    if atStart && chunkHeaderAt (c :: rest) && !cur.isEmpty then
      cur.reverse :: splitSectionsAux rest (c = '\n') [c]
    else splitSectionsAux rest (c = '\n') (c :: cur)

def splitSections (content : String) : List String :=
  (splitSectionsAux content.data true []).map (fun cs => (⟨cs⟩ : String))

/-- The grouping loop of chunkContent: close the running chunk (flagged
`hasMore` with token `chunk:<next index>`) whenever the next piece would
overflow the budget and the running chunk is nonempty. -/
def groupChunks (maxTokens : Nat) : List String → String → List ChunkResult → List ChunkResult
  | [], cur, acc => if cur ≠ "" then acc ++ [⟨cur, false, none⟩] else acc
  | sec :: rest, cur, acc =>
    if estimateTokens cur + estimateTokens sec > maxTokens && cur ≠ "" then
      groupChunks maxTokens rest sec
        (acc ++ [⟨cur, true, some ("chunk:" ++ natToString (acc.length + 1))⟩])
    else groupChunks maxTokens rest (cur ++ sec) acc

/-- chunkContent of src handlers.ts. -/
def chunkContent (content : String) (maxTokens : Nat) : List ChunkResult :=
  if estimateTokens content ≤ maxTokens then [⟨content, false, none⟩]
  else groupChunks maxTokens (splitSections content) "" []

/-! ## handleFetch (src handlers.ts) -/

/-- `parseInt(x, 10)` on the substring after `chunk:` — leading digits, or
`NaN` (`none`) when there are none. -/
def jsParseIntOpt (s : String) : Option Nat :=
  let (d, _) := takeDigits s.data
  if d.isEmpty then none else some (parseIntDec d)

/-- `continuation.split(':')[1]` followed by `parseInt`: the continuation
chunk index, `none` standing for `NaN`. -/
def parseContinuationIdx (c : String) : Option Nat :=
  match (splitOnChar ':' c.data).get? 1 with
  | some part => jsParseIntOpt ⟨part⟩
  | none => none

/-- JavaScript `String.prototype.trimEnd`. -/
def jsTrimEnd (s : String) : String := ⟨(s.data.reverse.dropWhile isSpaceC).reverse⟩

/-- Suffix test for the divider pattern `\n*---\n*\s*$` at this position. -/
def dividerMatchAt (t : List Char) : Bool :=
  match t.dropWhile (fun c => c = '\n') with
  | '-' :: '-' :: '-' :: rest => rest.all isSpaceC
  | _ => false

/-- Leftmost start of a `\n*---\n*\s*$` match. -/
def findDividerIdx : List Char → Option Nat
  | [] => none
  | c :: rest =>
    if dividerMatchAt (c :: rest) then some 0
    else (findDividerIdx rest).map (· + 1)

/-- `content.replace(/\n*---\n*\s*$/, '')`. -/
def stripTrailingDivider (s : String) : String :=
  match findDividerIdx s.data with
  | some i => ⟨s.data.take i⟩
  | none => s

/-- `JSON.stringify` of the sections array (no escaping is needed for
section notations). -/
def jsonStringArr (sections : List String) : String :=
  "[" ++ String.intercalate "," (sections.map (fun s => "\"" ++ s ++ "\"")) ++ "]"

/-- handleFetch of src handlers.ts over a fresh index (the `ensureFreshIndex`
call is the identity on a non-stale index state).  The response is the list
of text blocks of the ToolResponse.  The source wraps everything after
expansion in a try/catch that prefixes "Failed to fetch sections: "; an
out-of-range continuation index raises inside that try block. -/
def handleFetch (sections : List String) (continuation : Option String)
    (index : SectionIndex) (fsMap : List (String × String)) (baseDir : String)
    (maxChunkTokens : Nat) (fuel : Nat) : Option (Except String (List String)) :=
  if sections.isEmpty then some (.error "sections parameter must be a non-empty array")
  else
    match expandSectionsWithIndex sections index with
    | .error e => some (.error e)
    | .ok expanded =>
      match fetchSectionsWithIndex expanded index fsMap baseDir fuel with
      | none => none
      | some (.error e) => some (.error ("Failed to fetch sections: " ++ e))
      | some (.ok fullContent) =>
        let chunks := chunkContent fullContent maxChunkTokens
        let chunkIndex : Option Nat :=
          match continuation with
          | some c => if jsStartsWith c "chunk:" then parseContinuationIdx c else some 0
          | none => some 0
        match chunkIndex with
        | none =>
          some (.error ("Failed to fetch sections: " ++
            "Cannot read properties of undefined (reading 'content')"))
        | some k =>
          if chunks.length ≤ k then
            some (.error ("Failed to fetch sections: Invalid continuation token: " ++
              (match continuation with | some c => c | none => "null") ++
              " (requested chunk " ++ natToString k ++ " but only " ++
              natToString chunks.length ++ " chunks exist)"))
          else
            match chunks.get? k with
            | none => none
            | some chunk =>
              let body :=
                if chunk.hasMore then jsTrimEnd (stripTrailingDivider chunk.content)
                else chunk.content
              some (.ok ([body] ++
                (if chunk.hasMore then
                  ["\n\n---\n**CRITICAL: INCOMPLETE RESPONSE - MANDATORY CONTINUATION REQUIRED**\n\nCall fetch again with: sections=" ++
                    jsonStringArr sections ++ ", continuation=\"" ++
                    (match chunk.continuation with | some t => t | none => "") ++ "\""]
                 else [])))

/-! ## Format checker (src checker.ts) -/

structure CheckIssue where
  line : Nat
  severity : String
  code : String
  message : String
deriving DecidableEq, Repr

structure CheckResult where
  valid : Bool
  errors : Nat
  warnings : Nat
  issues : List CheckIssue
deriving DecidableEq, Repr

/-- A section header recorded by the checker scan. -/
structure SecEntry where
  line : Nat
  pfx : String
  number : String
  depth : Nat
deriving DecidableEq, Repr

/-- `CODE_FENCE_PATTERN = /^(`{3,})(\S*)/`: fence length and whether a
language tag follows. -/
def matchFenceLine (line : String) : Option (Nat × Bool) :=
  let run := line.data.takeWhile (fun c => c = backtick)
  if 3 ≤ run.length then
    some (run.length,
      match line.data.drop run.length with
      | c :: _ => !isSpaceC c
      | [] => false)
  else none

/-- `SECTION_HEADER_PATTERN = /^(#{2,})\s*\{§(PFX)\.(\d+(?:\.\d+)*)\}/`:
heading depth, prefix and number. -/
def matchSectionHeader (line : String) : Option (Nat × String × String) :=
  let hashes := line.data.takeWhile (fun c => c = '#')
  if hashes.length < 2 then none
  else
    match (line.data.drop hashes.length).dropWhile isSpaceC with
    | '\x7b' :: '§' :: r =>
      match takePfx r with
      | some (p, '.' :: r2) =>
        match takeNumPath r2 with
        | some (num, '\x7d' :: _) => some (hashes.length, ⟨p⟩, ⟨num⟩)
        | _ => none
      | _ => none
    | _ => none

/-- `MALFORMED_SECTION_PATTERN = /^(#{2,})\s*\{§/`. -/
def malformedHeaderP (line : String) : Bool :=
  let hashes := line.data.takeWhile (fun c => c = '#')
  2 ≤ hashes.length &&
    (match (line.data.drop hashes.length).dropWhile isSpaceC with
     | '\x7b' :: '§' :: _ => true
     | _ => false)

/-- `prefix.split('-')[0]`. -/
def basePfxOf (p : String) : String := ⟨(splitOnChar '-' p.data).headD []⟩

def hashRepeat (n : Nat) : String := ⟨List.replicate n '#'⟩

/-- The per-line scan of checkPolicyContent.  Returns the final fence
state (open fence start line, if any), the recorded sections, and the
issues in emission order. -/
def checkLines (lines : List String) : Option Nat × List SecEntry × List CheckIssue :=
  go lines 1 none none [] []
where
  go : List String → Nat → Option (Nat × Nat) → Option String → List SecEntry →
      List CheckIssue → Option Nat × List SecEntry × List CheckIssue
  | [], _, fence, _, sections, issues => (fence.map Prod.fst, sections, issues)
  | line :: rest, lineNum, fence, detected, sections, issues =>
    match matchFenceLine line with
    | some (len, hasLang) =>
      match fence with
      | none => go rest (lineNum + 1) (some (lineNum, len)) detected sections issues
      | some (startLine, cur) =>
        if !hasLang && cur ≤ len then go rest (lineNum + 1) none detected sections issues
        else go rest (lineNum + 1) (some (startLine, cur)) detected sections issues
    | none =>
      if fence.isSome then go rest (lineNum + 1) fence detected sections issues
      else if malformedHeaderP line && (matchSectionHeader line).isNone then
        go rest (lineNum + 1) fence detected sections (issues ++
          [⟨lineNum, "error", "MALFORMED_SECTION",
            "Malformed section header. Expected format: ## \x7b§PREFIX.NUMBER\x7d or ### \x7b§PREFIX.N.M\x7d"⟩])
      else
        match matchSectionHeader line with
        | some (depth, p, num) =>
          let parts := splitOnChar '.' num.data
          let isSub := 1 < parts.length
          let d := match detected with | some d => d | none => basePfxOf p
          let issues1 :=
            if basePfxOf p ≠ d then issues ++
              [⟨lineNum, "warning", "MIXED_PREFIX",
                "Mixed prefixes in file: " ++ p ++ " (expected " ++ d ++ " or " ++ d ++ "-*)"⟩]
            else issues
          let issues2 :=
            if !isSub && depth ≠ 2 then issues1 ++
              [⟨lineNum, "error", "WRONG_HEADING_LEVEL",
                "Whole section §" ++ p ++ "." ++ num ++ " should use ## (level 2), found " ++
                  hashRepeat depth ++ " (level " ++ natToString depth ++ ")"⟩]
            else if isSub && depth < 3 then issues1 ++
              [⟨lineNum, "error", "WRONG_HEADING_LEVEL",
                "Subsection §" ++ p ++ "." ++ num ++ " should use ### or deeper (level 3+), found " ++
                  hashRepeat depth ++ " (level " ++ natToString depth ++ ")"⟩]
            else issues1
          go rest (lineNum + 1) fence (some d) (sections ++ [⟨lineNum, p, num, depth⟩]) issues2
        | none => go rest (lineNum + 1) fence detected sections issues

/-- checkOrphanSubsections of src checker.ts. -/
def checkOrphanSubsections (sections : List SecEntry) : List CheckIssue :=
  let wholeSet := (sections.filter (fun s => (splitOnChar '.' s.number.data).length = 1)).map
    (fun s => s.pfx ++ "." ++ s.number)
  sections.foldl (fun issues s =>
    let parts := splitOnChar '.' s.number.data
    if 1 < parts.length then
      let parentKey := s.pfx ++ "." ++ natToString (parseIntDec (parts.headD []))
      if wholeSet.contains parentKey then issues
      else issues ++
        [⟨s.line, "error", "ORPHAN_SUBSECTION",
          "Subsection §" ++ s.pfx ++ "." ++ s.number ++ " has no parent section §" ++ parentKey⟩]
    else issues) []

/-- Insertion-ordered multimap update (JavaScript `Map` + push). -/
def upsertNat (k : String) (v : Nat) : List (String × List Nat) → List (String × List Nat)
  | [] => [(k, [v])]
  | (k', vs) :: rest => if k' = k then (k', vs ++ [v]) :: rest else (k', vs) :: upsertNat k v rest

def upsertPair (k : String) (v : Nat × Nat) :
    List (String × List (Nat × Nat)) → List (String × List (Nat × Nat))
  | [] => [(k, [v])]
  | (k', vs) :: rest => if k' = k then (k', vs ++ [v]) :: rest else (k', vs) :: upsertPair k v rest

/-- Stable ascending numeric sort (`[...nums].sort((a, b) => a - b)`). -/
def insertNatLe (x : Nat) : List Nat → List Nat
  | [] => [x]
  | y :: ys => if y ≤ x then y :: insertNatLe x ys else x :: y :: ys

def sortNats (ns : List Nat) : List Nat := ns.foldl (fun acc x => insertNatLe x acc) []

def insertPairLe (x : Nat × Nat) : List (Nat × Nat) → List (Nat × Nat)
  | [] => [x]
  | y :: ys => if y.2 ≤ x.2 then y :: insertPairLe x ys else x :: y :: ys

def sortPairs (ps : List (Nat × Nat)) : List (Nat × Nat) :=
  ps.foldl (fun acc x => insertPairLe x acc) []

/-- `curr - prev === 2 ? String(prev + 1) : `${prev + 1}-${curr - 1}``. -/
def missingRange (prev curr : Nat) : String :=
  if curr - prev = 2 then natToString (prev + 1)
  else natToString (prev + 1) ++ "-" ++ natToString (curr - 1)

/-- Gap walk over consecutive sorted whole-section numbers. -/
def wholeGapIssues (pfx : String) (sections : List SecEntry) : List Nat → List CheckIssue
  | a :: b :: rest =>
    (if b ≠ a + 1 then
      match sections.find? (fun s => s.pfx = pfx && s.number = natToString b) with
      | some cs =>
        [⟨cs.line, "error", "NUMBERING_GAP",
          "Gap in §" ++ pfx ++ " numbering: missing " ++ missingRange a b ++ " before " ++
            natToString b⟩]
      | none => []
     else []) ++ wholeGapIssues pfx sections (b :: rest)
  | _ => []

/-- Gap walk over consecutive sorted (line, subNum) pairs. -/
def subGapIssues (parentKey : String) : List (Nat × Nat) → List CheckIssue
  | a :: b :: rest =>
    (if b.2 ≠ a.2 + 1 then
      [⟨b.1, "error", "NUMBERING_GAP",
        "Gap in §" ++ parentKey ++ " subsections: missing ." ++ missingRange a.2 b.2 ++
          " before ." ++ natToString b.2⟩]
     else []) ++ subGapIssues parentKey (b :: rest)
  | _ => []

/-- checkNumberingSequence of src checker.ts. -/
def checkNumberingSequence (sections : List SecEntry) : List CheckIssue :=
  let grouped := sections.foldl (fun acc s =>
    let parts := (splitOnChar '.' s.number.data).map parseIntDec
    match parts with
    | [n] => (upsertNat s.pfx n acc.1, acc.2)
    | [n, m] => (acc.1, upsertPair (s.pfx ++ "." ++ natToString n) (s.line, m) acc.2)
    | _ => acc) (([], []) : List (String × List Nat) × List (String × List (Nat × Nat)))
  let wholeIssues := grouped.1.foldl (fun issues kv =>
    let (pfx, nums) := kv
    let sorted := sortNats nums
    match sorted with
    | [] => issues
    | first :: _ =>
      let startIssues :=
        if first ≠ 1 then
          match sections.find? (fun s => s.pfx = pfx && s.number = natToString first) with
          | some fs =>
            [⟨fs.line, "error", "NUMBERING_GAP",
              "Sections for §" ++ pfx ++ " start at " ++ natToString first ++ " instead of 1"⟩]
          | none => []
        else []
      issues ++ startIssues ++ wholeGapIssues pfx sections sorted) []
  let subIssues := grouped.2.foldl (fun issues kv =>
    let (parentKey, subs) := kv
    let sorted := sortPairs subs
    match sorted with
    | [] => issues
    | first :: _ =>
      let startIssues :=
        if first.2 ≠ 1 then
          [⟨first.1, "error", "NUMBERING_GAP",
            "Subsections under §" ++ parentKey ++ " start at ." ++ natToString first.2 ++
              " instead of .1"⟩]
        else []
      issues ++ startIssues ++ subGapIssues parentKey sorted) []
  wholeIssues ++ subIssues

/-- Stable sort of issues by line (`issues.sort((a, b) => a.line - b.line)`). -/
def insertIssueLe (x : CheckIssue) : List CheckIssue → List CheckIssue
  | [] => [x]
  | y :: ys => if y.line ≤ x.line then y :: insertIssueLe x ys else x :: y :: ys

def sortIssues (issues : List CheckIssue) : List CheckIssue :=
  issues.foldl (fun acc x => insertIssueLe x acc) []

/-- checkPolicyContent of src checker.ts. -/
def checkPolicyContent (content : String) : CheckResult :=
  let (fence, sections, scanIssues) := checkLines (splitLines content)
  let issues0 := scanIssues ++
    (match fence with
     | some startLine =>
       [⟨startLine, "error", "UNCLOSED_FENCE",
         "Code block opened at line " ++ natToString startLine ++ " is never closed"⟩]
     | none => [])
  let issues1 := issues0 ++ checkOrphanSubsections sections
  let issues2 := issues1 ++ checkNumberingSequence sections
  let sorted := sortIssues issues2
  let errs := (sorted.filter (fun i => i.severity = "error")).length
  let warns := (sorted.filter (fun i => i.severity = "warning")).length
  ⟨errs = 0, errs, warns, sorted⟩

/-! ## Specification-side definitions

These follow the words of the specification (not the source) and exist to
be compared with the source embeddings above. -/

/-- Fence tracking by the rules the specification prescribes for stop-line
scanning (the rules of checkPolicyContent / embedded scanning, spec 4.1:
any 3+ fence opens, only a tag-less fence at least as long closes):
the resulting open-fence length after the given lines, `none` if closed. -/
def specFenceFold (lines : List String) : Option Nat :=
  lines.foldl (fun st line =>
    match matchFenceLine line with
    | some (len, hasLang) =>
      match st with
      | none => some len
      | some cur => if !hasLang && cur ≤ len then none else some cur
    | none => st) none

/-- Line-based fence stripping by the rules the specification claims for
findEmbeddedReferences (spec 4.1 a-d): any 3+ fence opens, only a tag-less
fence of at least the opener's length closes, an unterminated fence runs to
end-of-input.  Returns the text outside fenced regions. -/
def specStripFences (content : String) : String :=
  String.intercalate "\n" (go (splitLines content) none)
where
  go : List String → Option Nat → List String
  | [], _ => []
  | line :: rest, st =>
    match matchFenceLine line, st with
    | some (_, _), none =>
      go rest (some (match matchFenceLine line with | some (l, _) => l | none => 0))
    | some (len, hasLang), some cur =>
      if !hasLang && cur ≤ len then go rest none else go rest (some cur)
    | none, some cur => go rest (some cur)
    | none, none => line :: go rest none

/-- Specification-side path order against a missing (all-zero) right side. -/
def specLtPad : List Nat → Bool
  | [] => false
  | x :: xs => x = 0 && specLtPad xs

/-- Specification-side path order with a missing (all-zero) left side. -/
def specPadLt : List Nat → Bool
  | [] => false
  | y :: ys => 0 < y || (y = 0 && specPadLt ys)

/-- Specification-side path order: compare numeric paths component-wise,
treating a missing trailing component as 0. -/
def specPathLt : List Nat → List Nat → Bool
  | [], ys => specPadLt ys
  | x :: xs, [] => specLtPad (x :: xs)
  | x :: xs, y :: ys => x < y || (x = y && specPathLt xs ys)

/-- Dot-joined numeric path. -/
def dotJoin : List Nat → String
  | [] => ""
  | [n] => natToString n
  | n :: rest => natToString n ++ "." ++ dotJoin rest

/-- A section reference built from a prefix and a numeric path. -/
def mkRef (p : String) (path : List Nat) : String := "§" ++ p ++ "." ++ dotJoin path

/-- Shape check for a chunk list: every chunk but the last carries
`hasMore` and the continuation token of the next index, the last carries
neither. -/
def chunksShape (cs : List ChunkResult) : Bool :=
  go 1 cs
where
  go : Nat → List ChunkResult → Bool
  | _, [] => true
  | _, [c] => !c.hasMore && c.continuation = none
  | i, c :: rest =>
    c.hasMore && c.continuation = some ("chunk:" ++ natToString i) && go (i + 1) rest

/-- The `hasMore` chunks invariant during grouping: tokens count up from `i`. -/
def allMoreFrom : Nat → List ChunkResult → Bool
  | _, [] => true
  | i, c :: rest =>
    c.hasMore && c.continuation = some ("chunk:" ++ natToString i) && allMoreFrom (i + 1) rest

/-- Concatenation of a piece list. -/
def concatAll : List String → String
  | [] => ""
  | s :: rest => s ++ concatAll rest

/-- Only the gathered keys (and warnings discarded) of a resolver result. -/
def gatherKeys (r : Option (Except String (List (String × GatheredSection) × List String))) :
    Option (Except String (List String)) :=
  r.map (Except.map (fun p => p.1.map Prod.fst))

/-! ## Concrete fixtures used by the claim instances -/

/-- A policy file with a whole section, a nested subsection, and a sibling
section. -/
def fileA : String :=
  "## \x7b§APP.4\x7d\nBody4\n### \x7b§APP.4.1\x7d\nBody41\n## \x7b§APP.5\x7d\nBody5\n\x7b§END\x7d"

def fsA : List (String × String) := [("/p/policy-app.md", fileA)]

def idxA : SectionIndex :=
  ⟨[("§APP.4", "/p/policy-app.md"), ("§APP.4.1", "/p/policy-app.md"),
    ("§APP.5", "/p/policy-app.md")], []⟩

/-- The gathered map produced by resolving `[§APP.4, §APP.4.1]` (either
order) against `fileA`. -/
def gatherA : List (String × GatheredSection) :=
  [("§APP.4", ⟨"APP", "4", "policy-app.md",
    "## \x7b§APP.4\x7d\nBody4\n### \x7b§APP.4.1\x7d\nBody41"⟩)]

/-- A policy file whose single section embeds a prefix-only wildcard
reference `§ZZZ` matching nothing in the index. -/
def fileB : String := "## \x7b§APP.1\x7d\nSee §ZZZ for details\n\x7b§END\x7d"

def fsB : List (String × String) := [("/p/policy-app.md", fileB)]

def idxB : SectionIndex := ⟨[("§APP.1", "/p/policy-app.md")], []⟩

/-- A policy file whose section body opens a fence with a language tag and
then repeats the tagged fence line before the end marker. -/
def fileC : String := "## \x7b§APP.1\x7d\n```js\n```js\n\x7b§END\x7d\ntail"

def fsC : List (String × String) := [("/p/f.md", fileC)]

/-- A policy file whose section body holds a plain fenced block embedding
the literal end marker. -/
def fileD : String :=
  "## \x7b§APP.1\x7d\n```\n\x7b§END\x7d\n```\nmore\n\x7b§END\x7d\nafter"

def fsD : List (String × String) := [("/p/f.md", fileD)]

/-! # Theorems

General-purpose lemmas about the embedding first, then one theorem per
claim (with witnesses and counterexamples as required). -/

theorem strData_append (a b : String) : (a ++ b).data = a.data ++ b.data := rfl

theorem strMk_data (s : String) : (⟨s.data⟩ : String) = s := rfl

theorem strMk_eq_iff (a b : List Char) : (⟨a⟩ : String) = (⟨b⟩ : String) ↔ a = b := by
  constructor
  · intro h
    cases h
    rfl
  · intro h
    cases h
    rfl

theorem strEmpty_iff (s : String) : s = "" ↔ s.data = [] := by
  constructor
  · intro h
    rw [h]
  · intro h
    cases s with
    | mk d =>
      simp only at h
      cases h
      rfl

theorem strAppend_ne_empty_left (a b : String) (h : a ≠ "") : a ++ b ≠ "" := by
  intro hab
  apply h
  rw [strEmpty_iff] at hab ⊢
  rw [strData_append] at hab
  exact (List.append_eq_nil.mp hab).1

/-- Unfold a `jsStartsWith` over an explicit prefix decomposition. -/
theorem jsStartsWith_append (pre rest : String) : jsStartsWith (pre ++ rest) pre = true := by
  simp only [jsStartsWith, strData_append]
  rw [List.isPrefixOf_iff_prefix]
  exact List.prefix_append _ _

theorem isParentSection_length {a b : String} (h : isParentSection a b = true) :
    a.data.length < b.data.length := by
  unfold isParentSection at h
  split at h
  · exact absurd h (by simp)
  · simp only [jsStartsWith] at h
    have hp := List.isPrefixOf_iff_prefix.mp h
    have h2 := hp.length_le
    rw [strData_append, List.length_append] at h2
    have h3 : ".".data.length = 1 := rfl
    omega

/-- Claim C9: isParentSection is antisymmetric (a parent of b rules out b
parent of a) and irreflexive. -/
theorem claim_C9_parent_antisymm_irrefl :
    (∀ a b : String, isParentSection a b = true → isParentSection b a = false) ∧
    (∀ a : String, isParentSection a a = false) := by
  constructor
  · intro a b hab
    cases hba : isParentSection b a with
    | false => rfl
    | true =>
      have h1 := isParentSection_length hab
      have h2 := isParentSection_length hba
      omega
  · intro a
    cases h : isParentSection a a with
    | false => rfl
    | true =>
      have := isParentSection_length h
      omega

/-- Witness for C9 at `§APP.4` / `§APP.4.1`. -/
theorem claim_C9_witness :
    isParentSection "§APP.4.1" "§APP.4" = false ∧ isParentSection "§APP.4" "§APP.4" = false :=
  ⟨claim_C9_parent_antisymm_irrefl.1 "§APP.4" "§APP.4.1" (by rfl),
   claim_C9_parent_antisymm_irrefl.2 "§APP.4"⟩

/-- Claim C8: a file with top-level sections 1, 4, 7 reports exactly two
NUMBERING_GAP errors naming the ranges 2-3 (before 4) and 5-6 (before 7),
and nothing else. -/
theorem claim_C8_numbering_gaps :
    checkPolicyContent "## \x7b§APP.1\x7d\nalpha\n## \x7b§APP.4\x7d\nbeta\n## \x7b§APP.7\x7d\ngamma" =
      ⟨false, 2, 0,
        [⟨3, "error", "NUMBERING_GAP", "Gap in §APP numbering: missing 2-3 before 4"⟩,
         ⟨5, "error", "NUMBERING_GAP", "Gap in §APP numbering: missing 5-6 before 7"⟩]⟩ := by
  rfl

theorem breakAtDot_exact (p r : List Char) (hp : '.' ∉ p) :
    breakAtDot (p ++ '.' :: r) = some (p, r) := by
  induction p with
  | nil => simp [breakAtDot]
  | cons c cs ih =>
    have hc : c ≠ '.' := fun h => hp (h ▸ List.mem_cons_self c cs)
    have hcs : '.' ∉ cs := fun h => hp (List.mem_cons_of_mem c h)
    simp [breakAtDot, hc, ih hcs]

theorem breakAtDot_sound :
    ∀ {cs a b : List Char}, breakAtDot cs = some (a, b) → cs = a ++ '.' :: b ∧ '.' ∉ a := by
  intro cs
  induction cs with
  | nil => intro a b h; simp [breakAtDot] at h
  | cons c rest ih =>
    intro a b h
    simp only [breakAtDot] at h
    by_cases hc : c = '.'
    · simp [hc] at h
      obtain ⟨ha, hb⟩ := h
      subst ha
      subst hb
      simp [hc]
    · simp only [hc, if_false] at h
      cases hrec : breakAtDot rest with
      | none => rw [hrec] at h; simp at h
      | some ab =>
        rw [hrec] at h
        simp at h
        obtain ⟨ha, hb⟩ := h
        have hih := ih hrec
        subst ha
        subst hb
        refine ⟨?_, ?_⟩
        · simp [hih.1]
        · intro hmem
          rcases List.mem_cons.mp hmem with h1 | h1
          · exact hc h1.symm
          · exact hih.2 h1

theorem splitOnChar_ne_nil (sep : Char) (cs : List Char) : splitOnChar sep cs ≠ [] := by
  induction cs with
  | nil => simp [splitOnChar]
  | cons c rest ih =>
    simp only [splitOnChar]
    by_cases hc : c = sep
    · simp [hc]
    · simp only [hc, if_false]
      cases h : splitOnChar sep rest with
      | nil => exact absurd h ih
      | cons x xs => simp

theorem mem_splitOnChar {sep c : Char} :
    ∀ {cs : List Char}, c ∈ cs → c = sep ∨ ∃ s ∈ splitOnChar sep cs, c ∈ s := by
  intro cs
  induction cs with
  | nil => intro h; simp at h
  | cons d rest ih =>
    intro h
    rcases List.mem_cons.mp h with h1 | h1
    · by_cases hd : d = sep
      · subst h1; exact Or.inl hd
      · right
        subst h1
        simp only [splitOnChar, hd, if_false]
        cases hs : splitOnChar sep rest with
        | nil => exact absurd hs (splitOnChar_ne_nil sep rest)
        | cons x xs => exact ⟨c :: x, by simp⟩
    · rcases ih h1 with h2 | ⟨s, hs, hcs⟩
      · exact Or.inl h2
      · right
        by_cases hd : d = sep
        · exact ⟨s, by simp [splitOnChar, hd, hs], hcs⟩
        · simp only [splitOnChar, hd, if_false]
          cases hsp : splitOnChar sep rest with
          | nil => exact absurd hsp (splitOnChar_ne_nil sep rest)
          | cons x xs =>
            rw [hsp] at hs
            rcases List.mem_cons.mp hs with h3 | h3
            · exact ⟨d :: x, by simp, by subst h3; exact List.mem_cons_of_mem d hcs⟩
            · exact ⟨s, by simp [h3], hcs⟩

theorem validPrefix_chars {p : List Char} (h : validPrefixCore p = true) {c : Char}
    (hc : c ∈ p) : isUpperAZ c = true ∨ isDigitC c = true ∨ c = '-' := by
  rcases @mem_splitOnChar '-' _ _ hc with h1 | ⟨s, hs, hcs⟩
  · exact Or.inr (Or.inr h1)
  · unfold validPrefixCore at h
    have hseg := List.all_eq_true.mp h s hs
    unfold prefixSegOk at hseg
    cases s with
    | nil => simp at hseg
    | cons x xs =>
      simp only [Bool.and_eq_true] at hseg
      rcases List.mem_cons.mp hcs with h2 | h2
      · exact Or.inl (h2 ▸ hseg.1)
      · have := List.all_eq_true.mp hseg.2 c h2
        rcases (Bool.or_eq_true _ _).mp this with h3 | h3
        · exact Or.inl h3
        · exact Or.inr (Or.inl h3)

theorem validPrefix_no_dot {p : List Char} (h : validPrefixCore p = true) : '.' ∉ p := by
  intro hc
  rcases validPrefix_chars h hc with h1 | h1 | h1 <;> revert h1 <;> decide

theorem validPrefix_no_newline {p : List Char} (h : validPrefixCore p = true) : '\n' ∉ p := by
  intro hc
  rcases validPrefix_chars h hc with h1 | h1 | h1 <;> revert h1 <;> decide

/-- A section-mark string decomposes as `'§' :: rest`. -/
theorem sectionMark_data (x : String) : ("§" ++ x).data = '§' :: x.data := rfl

theorem jsStartsWith_mark (x : String) : jsStartsWith ("§" ++ x) "§" = true :=
  jsStartsWith_append "§" x

theorem strExt {a b : String} (h : a.data = b.data) : a = b := by
  cases a
  cases b
  simp only at h
  rw [h]

theorem matchSectionNota_exact (p rest : List Char) (hp : validPrefixCore p = true)
    (hne : rest ≠ []) (hdd : rest.all isDigitDot = true) :
    matchSectionNota (p ++ '.' :: rest) = some (p, rest) := by
  unfold matchSectionNota
  rw [breakAtDot_exact p rest (validPrefix_no_dot hp)]
  cases rest with
  | nil => exact absurd rfl hne
  | cons r rs => simp_all

theorem matchSectionNota_sound {cs p rest : List Char}
    (h : matchSectionNota cs = some (p, rest)) :
    cs = p ++ '.' :: rest ∧ validPrefixCore p = true ∧ rest ≠ [] ∧
      rest.all isDigitDot = true := by
  unfold matchSectionNota at h
  cases hb : breakAtDot cs with
  | none => rw [hb] at h; simp at h
  | some pr =>
    rw [hb] at h
    obtain ⟨a, b⟩ := pr
    dsimp only at h
    split at h
    · rename_i hguard
      simp only [Option.some.injEq, Prod.mk.injEq] at h
      obtain ⟨h1, h2⟩ := h
      subst h1
      subst h2
      obtain ⟨hcs, -⟩ := breakAtDot_sound hb
      simp only [Bool.and_eq_true, Bool.not_eq_true'] at hguard
      refine ⟨hcs, hguard.1.1, ?_, hguard.2⟩
      intro hnil
      rw [hnil] at hguard
      exact absurd hguard.1.2 (by decide)
    · simp at h

/-- Claim C7 (amended): with no file map, parseSectionNotation succeeds on
exactly the inputs `§` + prefix + `.` + remainder where the prefix matches
the prefix grammar and the remainder is a nonempty run of digits and dots
(the source regex accepts any `[0-9.]+` remainder, not only dot-separated
digit groups), and then returns the parsed prefix and remainder with a
null file. -/
theorem claim_C7_parse_success_iff :
    (∀ p rest : String, validPrefix p = true → rest ≠ "" → rest.data.all isDigitDot = true →
        parseSectionNota ("§" ++ p ++ "." ++ rest) none = .ok ⟨p, rest, none⟩) ∧
    (∀ input r, parseSectionNota input none = .ok r →
        ∃ p rest : String, input = "§" ++ p ++ "." ++ rest ∧ validPrefix p = true ∧
          rest ≠ "" ∧ rest.data.all isDigitDot = true ∧ r = ⟨p, rest, none⟩) := by
  constructor
  · intro p rest hp hne hdd
    have hassoc : ("§" ++ p ++ "." ++ rest) = "§" ++ (p ++ ("." ++ rest)) := by
      rw [String.append_assoc, String.append_assoc]
    rw [hassoc]
    unfold parseSectionNota
    rw [jsStartsWith_mark]
    have hdata : ("§" ++ (p ++ ("." ++ rest))).data.tail = p.data ++ '.' :: rest.data := by
      rw [sectionMark_data]
      simp [strData_append]
    simp only [Bool.not_true, Bool.false_eq_true, if_false]
    rw [hdata, matchSectionNota_exact p.data rest.data hp
      (fun hn => hne (strEmpty_iff rest |>.mpr hn)) hdd]
  · intro input r h
    unfold parseSectionNota at h
    split at h
    · simp at h
    · rename_i hstart
      simp only [Bool.not_eq_true', Bool.not_eq_false] at hstart
      have hpre := List.isPrefixOf_iff_prefix.mp hstart
      obtain ⟨t, ht⟩ := hpre
      have htail : input.data.tail = t := by rw [← ht]; rfl
      cases hm : matchSectionNota input.data.tail with
      | none => rw [hm] at h; simp at h
      | some pr =>
        rw [hm] at h
        obtain ⟨p₀, rest₀⟩ := pr
        simp only [Except.ok.injEq] at h
        obtain ⟨hcs, hvp, hne, hdd⟩ := matchSectionNota_sound (htail ▸ hm)
        refine ⟨⟨p₀⟩, ⟨rest₀⟩, ?_, hvp, ?_, hdd, h.symm⟩
        · apply strExt
          rw [← ht, hcs]
          simp [strData_append]
        · intro he
          exact hne ((strMk_eq_iff rest₀ []).mp he)

/-- Counterexample to C7 as stated: the remainder `7.` of `§APP.7.` is not a
dot-separated sequence of digit groups (it ends in a dot), yet
parseSectionNotation succeeds on it, so the claimed failure condition is not
exact. -/
theorem claim_C7_counterexample :
    parseSectionNota "§APP.7." none = .ok ⟨"APP", "7.", none⟩ := by rfl

/-- Witness for C7: the success direction applied at prefix `SYS-TPL` and
remainder `2.10`. -/
theorem claim_C7_witness :
    parseSectionNota "§SYS-TPL.2.10" none = .ok ⟨"SYS-TPL", "2.10", none⟩ :=
  claim_C7_parse_success_iff.1 "SYS-TPL" "2.10" (by rfl) (by decide) (by rfl)

/-- Counterexample to C4 as stated: extractRange does NOT track fence state
by the embedded-scanning rules.  In `fileC` the body opens a fence with
`\x60\x60\x60js` and repeats that tagged line; under the claimed shared rules a tagged
fence never closes, so the `{§END}` line is inside an open fence
(`specFenceFold` is still open after both lines) and extraction should not
stop there — but extractRange toggles on any fence line, treats the second
`\x60\x60\x60js` as a closer, and truncates at `{§END}`, dropping the trailing
`tail` line. -/
theorem claim_C4_counterexample :
    extractSection fsC "/p/f.md" "APP" "1" = .ok "## \x7b§APP.1\x7d\n```js\n```js" ∧
    specFenceFold ["```js", "```js"] = some 3 := by
  constructor <;> rfl

/-- Claim C4 (amended): extractRange tracks fences by a plain toggle on any
line starting with three backticks (ignoring language tags and fence
lengths); while the toggle state is open, no line — in particular no stop
or end marker — terminates extraction; hence a top-level section whose body
holds a plain fenced block embedding the literal `{§END}` is not truncated
at that point. -/
theorem claim_C4_toggle_fences :
    (∀ (startP stopP : String → Bool) (line : String) (rest : List String)
        (acc : List String), jsStartsWith line "```" = false →
        extractRangeLoop startP stopP (line :: rest) true true acc =
          extractRangeLoop startP stopP rest true true (acc ++ [line])) ∧
    extractSection fsD "/p/f.md" "APP" "1" = .ok "## \x7b§APP.1\x7d\n```\n\x7b§END\x7d\n```\nmore" := by
  constructor
  · intro startP stopP line rest acc h
    simp [extractRangeLoop, h]
  · rfl

/-- Witness for C4: the toggle-state step applied to the `{§END}` line
itself. -/
theorem claim_C4_witness :
    extractRangeLoop (topStartP "APP" "1") (topStopP "APP") ["\x7b§END\x7d"] true true [] =
      extractRangeLoop (topStartP "APP" "1") (topStopP "APP") [] true true ["\x7b§END\x7d"] :=
  claim_C4_toggle_fences.1 (topStartP "APP" "1") (topStopP "APP") "\x7b§END\x7d" [] [] (by rfl)

/-- Counterexample to C5 as stated: in `\x60\x60\x60 \n A \n \x60\x60\x60js \n §APP.2` the
claimed rules reject the tagged `\x60\x60\x60js` line as a closer, so the fence
extends to end-of-input and §APP.2 lies inside it (`specStripFences`
removes it); yet findEmbeddedReferences accepts that line as a closer and
returns §APP.2. -/
theorem claim_C5_counterexample :
    findEmbeddedReferences "```\nA\n```js\n§APP.2\n" = ["§APP.2"] ∧
    specStripFences "```\nA\n```js\n§APP.2\n" = "" := by
  constructor <;> rfl

/- Claim C5 continues at the end of the file, after the general
fence-removal lemmas it depends on. -/

theorem digitChar_toNat (d : Nat) (h : d < 10) : (digitChar d).toNat = 48 + d := by
  interval_cases d <;> rfl

theorem isDigitC_digitChar (d : Nat) (h : d < 10) : isDigitC (digitChar d) = true := by
  interval_cases d <;> rfl

theorem parseIntDec_append_single (ds : List Char) (c : Char) :
    parseIntDec (ds ++ [c]) = parseIntDec ds * 10 + (c.toNat - 48) := by
  simp [parseIntDec, List.foldl_append]

theorem natToDigits_spec : ∀ fuel n, n < fuel →
    parseIntDec (natToDigits fuel n) = n ∧ (natToDigits fuel n).all isDigitC = true ∧
      natToDigits fuel n ≠ [] := by
  intro fuel
  induction fuel with
  | zero => intro n h; omega
  | succ f ih =>
    intro n h
    by_cases h10 : n < 10
    · refine ⟨?_, ?_, ?_⟩
      · simp only [natToDigits, h10, if_true]
        rw [show ([digitChar n] : List Char) = [] ++ [digitChar n] by rfl,
          parseIntDec_append_single, digitChar_toNat n h10]
        simp [parseIntDec]
      · simp [natToDigits, h10, isDigitC_digitChar n h10]
      · simp [natToDigits, h10]
    · have hmod : n % 10 < 10 := Nat.mod_lt n (by omega)
      have hdiv : n / 10 < f := by
        have h1 : n / 10 < n := Nat.div_lt_self (by omega) (by omega)
        omega
      obtain ⟨ih1, ih2, ih3⟩ := ih (n / 10) hdiv
      simp only [natToDigits, h10, if_false]
      refine ⟨?_, ?_, ?_⟩
      · rw [parseIntDec_append_single, ih1, digitChar_toNat (n % 10) hmod]
        have := Nat.div_add_mod n 10
        omega
      · rw [List.all_append, ih2]
        simp [isDigitC_digitChar (n % 10) hmod]
      · simp

theorem natToString_parse (n : Nat) : parseIntDec (natToString n).data = n :=
  (natToDigits_spec (n + 1) n (by omega)).1

theorem natToString_all_digits (n : Nat) : (natToString n).data.all isDigitC = true :=
  (natToDigits_spec (n + 1) n (by omega)).2.1

theorem natToString_ne_nil (n : Nat) : (natToString n).data ≠ [] :=
  (natToDigits_spec (n + 1) n (by omega)).2.2

theorem isEmpty_false_of_ne_nil {cs : List Char} (h : cs ≠ []) : cs.isEmpty = false := by
  cases cs with
  | nil => exact absurd rfl h
  | cons c r => rfl

theorem takeDigits_split : ∀ (ds r : List Char), ds.all isDigitC = true →
    (∀ c cs, r = c :: cs → isDigitC c = false) → takeDigits (ds ++ r) = (ds, r) := by
  intro ds
  induction ds with
  | nil =>
    intro r _ hr
    cases r with
    | nil => rfl
    | cons c cs => simp [takeDigits, hr c cs rfl]
  | cons d ds ih =>
    intro r hall hr
    simp only [List.all_cons, Bool.and_eq_true] at hall
    simp [takeDigits, hall.1, ih r hall.2 hr]

theorem takeDigits_cons_digit {c : Char} {r d0 r0 : List Char} (hc : isDigitC c = true)
    (htd : takeDigits r = (d0, r0)) : takeDigits (c :: r) = (c :: d0, r0) := by
  simp [takeDigits, hc, htd]

theorem takeDigits_cons_nondigit {c : Char} {r : List Char} (hc : isDigitC c = false) :
    takeDigits (c :: r) = ([], c :: r) := by
  simp [takeDigits, hc]

theorem takeDigits_snd_all (P : Char → Bool) :
    ∀ cs : List Char, cs.all P = true → (takeDigits cs).2.all P = true := by
  intro cs
  induction cs with
  | nil => intro _; simp [takeDigits]
  | cons c r ih =>
    intro h
    simp only [List.all_cons, Bool.and_eq_true] at h
    rcases htd : takeDigits r with ⟨d0, r0⟩
    cases hc : isDigitC c with
    | true =>
      rw [takeDigits_cons_digit hc htd]
      have := ih h.2
      rw [htd] at this
      exact this
    | false =>
      rw [takeDigits_cons_nondigit hc]
      simp [h.1, h.2]

theorem takeDigits_snd_head :
    ∀ (cs : List Char) c r', (takeDigits cs).2 = c :: r' → isDigitC c = false := by
  intro cs
  induction cs with
  | nil => intro c r' h; simp [takeDigits] at h
  | cons d r ih =>
    intro c r' h
    rcases htd : takeDigits r with ⟨d0, r0⟩
    cases hd : isDigitC d with
    | true =>
      rw [takeDigits_cons_digit hd htd] at h
      apply ih c r'
      rw [htd]
      exact h
    | false =>
      rw [takeDigits_cons_nondigit hd] at h
      simp only at h
      rw [← (List.cons.injEq d r c r').mp h |>.1]
      exact hd

theorem digitDot_suffix_opts {cs : List Char} (h : cs.all isDigitDot = true) :
    (takeDigits cs).2 = [] ∨
      ∃ r', (takeDigits cs).2 = '.' :: r' ∧ r'.all isDigitDot = true := by
  have h2 := takeDigits_snd_all isDigitDot cs h
  cases hsnd : (takeDigits cs).2 with
  | nil => exact Or.inl rfl
  | cons c r' =>
    right
    have hc := takeDigits_snd_head cs c r' hsnd
    rw [hsnd] at h2
    simp only [List.all_cons, Bool.and_eq_true] at h2
    have hdot : c = '.' := by
      have := h2.1
      unfold isDigitDot at this
      rcases (Bool.or_eq_true _ _).mp this with h3 | h3
      · rw [hc] at h3
        exact absurd h3 (by simp)
      · exact of_decide_eq_true h3
    exact ⟨r', by rw [hdot], h2.2⟩

/-- On the remainder of a plain (non-range) section notation, every range
matcher fails: the remainder contains only digits and dots, never the
required `-`. -/
theorem rangeMatchers_none {p rest : List Char} (hp : validPrefixCore p = true)
    (hdd : rest.all isDigitDot = true) :
    matchFullRange (p ++ '.' :: rest) = none ∧
      matchShortRange (p ++ '.' :: rest) = none ∧
      matchWholeRange (p ++ '.' :: rest) = none := by
  have hbreak := breakAtDot_exact p rest (validPrefix_no_dot hp)
  rcases htd : takeDigits rest with ⟨d0, r1⟩
  have hopts := digitDot_suffix_opts hdd
  rw [htd] at hopts
  simp only at hopts
  refine ⟨?_, ?_, ?_⟩
  · unfold matchFullRange
    rw [hbreak]
    simp only [hp, Bool.not_true, Bool.false_eq_true, if_false, htd]
    rcases hopts with h1 | ⟨r', h1, hdd'⟩
    · rw [h1]
    · rw [h1]
      rcases htd2 : takeDigits r' with ⟨d2, r3⟩
      have hopts2 := digitDot_suffix_opts hdd'
      rw [htd2] at hopts2
      simp only at hopts2
      simp only [htd2]
      rcases hopts2 with h2 | ⟨r'', h2, -⟩
      · rw [h2]
        try rfl
      · rw [h2]
        try rfl
  · unfold matchShortRange
    rw [hbreak]
    simp only [hp, Bool.not_true, Bool.false_eq_true, if_false, htd]
    rcases hopts with h1 | ⟨r', h1, hdd'⟩
    · rw [h1]
    · rw [h1]
      rcases htd2 : takeDigits r' with ⟨d2, r3⟩
      have hopts2 := digitDot_suffix_opts hdd'
      rw [htd2] at hopts2
      simp only at hopts2
      simp only [htd2]
      rcases hopts2 with h2 | ⟨r'', h2, -⟩
      · rw [h2]
        try rfl
      · rw [h2]
        try rfl
  · unfold matchWholeRange
    rw [hbreak]
    simp only [hp, Bool.not_true, Bool.false_eq_true, if_false, htd]
    rcases hopts with h1 | ⟨r', h1, -⟩
    · rw [h1]
      try rfl
    · rw [h1]
      try rfl

theorem takeDigits_all_digits {ds : List Char} (h : ds.all isDigitC = true) :
    takeDigits ds = (ds, []) := by
  have := takeDigits_split ds [] h (by intro c cs hc; cases hc)
  rwa [List.append_nil] at this

theorem takeDigits_digits_dash {a b : List Char} (ha : a.all isDigitC = true) :
    takeDigits (a ++ '-' :: b) = (a, '-' :: b) :=
  takeDigits_split a ('-' :: b) ha (by intro c cs h; cases h; rfl)

theorem takeDigits_digits_dot {a b : List Char} (ha : a.all isDigitC = true) :
    takeDigits (a ++ '.' :: b) = (a, '.' :: b) :=
  takeDigits_split a ('.' :: b) ha (by intro c cs h; cases h; rfl)

theorem matchWholeRange_exact {p a b : List Char} (hp : validPrefixCore p = true)
    (ha : a.all isDigitC = true) (hb : b.all isDigitC = true) (han : a ≠ []) (hbn : b ≠ []) :
    matchWholeRange (p ++ '.' :: (a ++ '-' :: b)) = some (p, a, b) := by
  unfold matchWholeRange
  rw [breakAtDot_exact _ _ (validPrefix_no_dot hp)]
  simp only [hp, Bool.not_true, Bool.false_eq_true, if_false, takeDigits_digits_dash ha]
  simp only [takeDigits_all_digits hb]
  simp [isEmpty_false_of_ne_nil han, isEmpty_false_of_ne_nil hbn]

theorem matchFull_on_whole_none {p a b : List Char} (hp : validPrefixCore p = true)
    (ha : a.all isDigitC = true) :
    matchFullRange (p ++ '.' :: (a ++ '-' :: b)) = none := by
  unfold matchFullRange
  rw [breakAtDot_exact _ _ (validPrefix_no_dot hp)]
  simp only [hp, Bool.not_true, Bool.false_eq_true, if_false, takeDigits_digits_dash ha]
  rfl

theorem matchShort_on_whole_none {p a b : List Char} (hp : validPrefixCore p = true)
    (ha : a.all isDigitC = true) :
    matchShortRange (p ++ '.' :: (a ++ '-' :: b)) = none := by
  unfold matchShortRange
  rw [breakAtDot_exact _ _ (validPrefix_no_dot hp)]
  simp only [hp, Bool.not_true, Bool.false_eq_true, if_false, takeDigits_digits_dash ha]
  rfl

theorem matchShortRange_exact {p m a b : List Char} (hp : validPrefixCore p = true)
    (hm : m.all isDigitC = true) (ha : a.all isDigitC = true) (hb : b.all isDigitC = true)
    (hmn : m ≠ []) (han : a ≠ []) (hbn : b ≠ []) :
    matchShortRange (p ++ '.' :: (m ++ '.' :: (a ++ '-' :: b))) = some (p, m, a, b) := by
  unfold matchShortRange
  rw [breakAtDot_exact _ _ (validPrefix_no_dot hp)]
  simp only [hp, Bool.not_true, Bool.false_eq_true, if_false, takeDigits_digits_dot hm]
  simp only [takeDigits_digits_dash ha, takeDigits_all_digits hb]
  simp [isEmpty_false_of_ne_nil hmn, isEmpty_false_of_ne_nil han, isEmpty_false_of_ne_nil hbn]

theorem matchFull_on_short_none {p m a b : List Char} (hp : validPrefixCore p = true)
    (hm : m.all isDigitC = true) (ha : a.all isDigitC = true) (hb : b.all isDigitC = true) :
    matchFullRange (p ++ '.' :: (m ++ '.' :: (a ++ '-' :: b))) = none := by
  unfold matchFullRange
  rw [breakAtDot_exact _ _ (validPrefix_no_dot hp)]
  simp only [hp, Bool.not_true, Bool.false_eq_true, if_false, takeDigits_digits_dot hm]
  simp only [takeDigits_digits_dash ha, takeDigits_all_digits hb]

theorem matchFullRange_exact {p m a b : List Char} (hp : validPrefixCore p = true)
    (hm : m.all isDigitC = true) (ha : a.all isDigitC = true) (hb : b.all isDigitC = true)
    (hmn : m ≠ []) (han : a ≠ []) (hbn : b ≠ []) :
    matchFullRange (p ++ '.' :: (m ++ '.' :: (a ++ '-' :: (m ++ '.' :: b)))) =
      some (p, m, a, b) := by
  unfold matchFullRange
  rw [breakAtDot_exact _ _ (validPrefix_no_dot hp)]
  simp only [hp, Bool.not_true, Bool.false_eq_true, if_false, takeDigits_digits_dot hm]
  simp only [takeDigits_digits_dash ha, takeDigits_digits_dot hm, takeDigits_all_digits hb]
  simp [isEmpty_false_of_ne_nil hmn, isEmpty_false_of_ne_nil han, isEmpty_false_of_ne_nil hbn]

theorem jsStartsWith_mark_of_data {s : String} {t : List Char} (h : s.data = '§' :: t) :
    jsStartsWith s "§" = true := by
  simp [jsStartsWith, h, List.isPrefixOf]

/-- Claim C2: expandRange expands a whole-section range `§P.A-B` with A ≤ B
to exactly B−A+1 ascending references `§P.A .. §P.B` (the inclusive walk
`rangeWalk`), likewise the abbreviated and explicit subsection range forms;
a backwards range returns an empty list with no error; and any input that
parses as a plain (non-range) reference expands to the one-element list
holding exactly the input. -/
theorem claim_C2_expandRange :
    (∀ a b : Nat,
        (a ≤ b → rangeWalk a b = (List.range (b + 1 - a)).map (fun k => a + k) ∧
          (rangeWalk a b).length = b - a + 1) ∧
        (b < a → rangeWalk a b = [])) ∧
    (∀ (p : String) (a b : Nat), validPrefix p = true →
        expandRange ("§" ++ p ++ "." ++ natToString a ++ "-" ++ natToString b) =
          .ok ((rangeWalk a b).map (fun i => "§" ++ p ++ "." ++ natToString i))) ∧
    (∀ (p : String) (m a b : Nat), validPrefix p = true →
        expandRange ("§" ++ p ++ "." ++ natToString m ++ "." ++ natToString a ++ "-" ++
            natToString b) =
          .ok ((rangeWalk a b).map
            (fun i => "§" ++ p ++ "." ++ natToString m ++ "." ++ natToString i))) ∧
    (∀ (p : String) (m a b : Nat), validPrefix p = true →
        expandRange ("§" ++ p ++ "." ++ natToString m ++ "." ++ natToString a ++ "-" ++
            natToString m ++ "." ++ natToString b) =
          .ok ((rangeWalk a b).map
            (fun i => "§" ++ p ++ "." ++ natToString m ++ "." ++ natToString i))) ∧
    (∀ input : String, (∃ r, parseSectionNota input none = .ok r) →
        expandRange input = .ok [input]) := by
  refine ⟨?_, ?_, ?_, ?_, ?_⟩
  · intro a b
    constructor
    · intro hab
      unfold rangeWalk
      rw [if_pos hab]
      constructor
      · rfl
      · simp
        omega
    · intro hba
      unfold rangeWalk
      rw [if_neg (by omega)]
  · intro p a b hp
    have hdata : ("§" ++ p ++ "." ++ natToString a ++ "-" ++ natToString b).data =
        '§' :: (p.data ++ '.' :: ((natToString a).data ++ '-' :: (natToString b).data)) := by
      simp [strData_append, show "§".data = ['§'] from rfl, show ".".data = ['.'] from rfl,
        show "-".data = ['-'] from rfl]
    have htail : ("§" ++ p ++ "." ++ natToString a ++ "-" ++ natToString b).data.tail =
        p.data ++ '.' :: ((natToString a).data ++ '-' :: (natToString b).data) := by
      rw [hdata, List.tail_cons]
    unfold expandRange
    rw [jsStartsWith_mark_of_data hdata]
    simp only [Bool.not_true, Bool.false_eq_true, if_false, htail]
    rw [matchFull_on_whole_none hp (natToString_all_digits a),
      matchShort_on_whole_none hp (natToString_all_digits a),
      matchWholeRange_exact hp (natToString_all_digits a) (natToString_all_digits b)
        (natToString_ne_nil a) (natToString_ne_nil b)]
    simp only [natToString_parse, strMk_data]
  · intro p m a b hp
    have hdata : ("§" ++ p ++ "." ++ natToString m ++ "." ++ natToString a ++ "-" ++
          natToString b).data =
        '§' :: (p.data ++ '.' :: ((natToString m).data ++ '.' ::
          ((natToString a).data ++ '-' :: (natToString b).data))) := by
      simp [strData_append, show "§".data = ['§'] from rfl, show ".".data = ['.'] from rfl,
        show "-".data = ['-'] from rfl]
    have htail := congrArg List.tail hdata
    simp only [List.tail_cons] at htail
    unfold expandRange
    rw [jsStartsWith_mark_of_data hdata]
    simp only [Bool.not_true, Bool.false_eq_true, if_false, htail]
    rw [matchFull_on_short_none hp (natToString_all_digits m) (natToString_all_digits a)
        (natToString_all_digits b),
      matchShortRange_exact hp (natToString_all_digits m) (natToString_all_digits a)
        (natToString_all_digits b) (natToString_ne_nil m) (natToString_ne_nil a)
        (natToString_ne_nil b)]
    simp only [natToString_parse, strMk_data]
  · intro p m a b hp
    have hdata : ("§" ++ p ++ "." ++ natToString m ++ "." ++ natToString a ++ "-" ++
          natToString m ++ "." ++ natToString b).data =
        '§' :: (p.data ++ '.' :: ((natToString m).data ++ '.' ::
          ((natToString a).data ++ '-' ::
            ((natToString m).data ++ '.' :: (natToString b).data)))) := by
      simp [strData_append, show "§".data = ['§'] from rfl, show ".".data = ['.'] from rfl,
        show "-".data = ['-'] from rfl]
    have htail := congrArg List.tail hdata
    simp only [List.tail_cons] at htail
    unfold expandRange
    rw [jsStartsWith_mark_of_data hdata]
    simp only [Bool.not_true, Bool.false_eq_true, if_false, htail]
    rw [matchFullRange_exact hp (natToString_all_digits m) (natToString_all_digits a)
        (natToString_all_digits b) (natToString_ne_nil m) (natToString_ne_nil a)
        (natToString_ne_nil b)]
    simp only [natToString_parse, strMk_data]
  · intro input hr
    obtain ⟨r, hr⟩ := hr
    unfold parseSectionNota at hr
    split at hr
    · simp at hr
    · rename_i hstart
      simp only [Bool.not_eq_true', Bool.not_eq_false] at hstart
      obtain ⟨t, ht⟩ := List.isPrefixOf_iff_prefix.mp hstart
      have htail : input.data.tail = t := by rw [← ht]; rfl
      cases hm : matchSectionNota input.data.tail with
      | none => rw [hm] at hr; simp at hr
      | some pr =>
        obtain ⟨p₀, rest₀⟩ := pr
        obtain ⟨hcs, hvp, -, hdd⟩ := matchSectionNota_sound (htail ▸ hm)
        have hnone := rangeMatchers_none hvp hdd
        unfold expandRange
        rw [show jsStartsWith input "§" = true from hstart]
        simp only [Bool.not_true, Bool.false_eq_true, if_false]
        rw [show input.data.tail = p₀ ++ '.' :: rest₀ from htail ▸ hcs]
        rw [hnone.1, hnone.2.1, hnone.2.2]

/-- Witness for C2: the four range behaviors at concrete inputs. -/
theorem claim_C2_witness :
    expandRange "§META.2-4" = .ok ["§META.2", "§META.3", "§META.4"] ∧
    expandRange "§APP.9-2" = .ok [] ∧
    expandRange "§APP.4.1-3" = .ok ["§APP.4.1", "§APP.4.2", "§APP.4.3"] ∧
    expandRange "§APP.4.1-4.3" = .ok ["§APP.4.1", "§APP.4.2", "§APP.4.3"] ∧
    expandRange "§APP.7" = .ok ["§APP.7"] :=
  ⟨claim_C2_expandRange.2.1 "META" 2 4 (by rfl),
   claim_C2_expandRange.2.1 "APP" 9 2 (by rfl),
   claim_C2_expandRange.2.2.1 "APP" 4 1 3 (by rfl),
   claim_C2_expandRange.2.2.2.1 "APP" 4 1 3 (by rfl),
   claim_C2_expandRange.2.2.2.2 "§APP.7" ⟨⟨"APP", "7", none⟩, by rfl⟩⟩

theorem prefixOnlyMatch_mark (p : String) (hp : validPrefix p = true) :
    prefixOnlyMatch ("§" ++ p) = some p := by
  unfold prefixOnlyMatch
  rw [sectionMark_data]
  have hp' : validPrefixCore p.data = true := hp
  simp only [hp', if_true, strMk_data]

/-- Claim C10: a prefix-only wildcard among the requested sections that
matches no indexed section makes expandSectionsWithIndex raise the error
naming the prefix, while the same wildcard embedded inside already
extracted content is silently expanded to nothing during gathering: the
resolution still succeeds, with no extra entry and no warning. -/
theorem claim_C10_wildcard_asymmetry :
    (∀ (p : String) (index : SectionIndex), validPrefix p = true →
        (index.sectionMap.map Prod.fst).filter
          (fun sec => jsStartsWith sec ("§" ++ p ++ ".")) = [] →
        expandSectionsWithIndex ["§" ++ p] index =
          .error ("No sections found for prefix: " ++ p)) ∧
    gatherSectionsWithIndex ["§APP.1"] idxB fsB "/p" false 10 =
      some (.ok ([("§APP.1", ⟨"APP", "1", "policy-app.md",
        "## \x7b§APP.1\x7d\nSee §ZZZ for details"⟩)], [])) := by
  constructor
  · intro p index hp hempty
    unfold expandSectionsWithIndex
    rw [prefixOnlyMatch_mark p hp]
    simp only [hempty]
    rfl
  · rfl

/-- Witness for C10: the wildcard `§ZZZ` matches nothing in `idxB`. -/
theorem claim_C10_witness :
    expandSectionsWithIndex ["§ZZZ"] idxB = .error "No sections found for prefix: ZZZ" :=
  claim_C10_wildcard_asymmetry.1 "ZZZ" idxB (by rfl) (by rfl)


theorem compareZeroPad_nonneg : ∀ xs : List Nat,
    ¬ compareZeroPad (xs.map (fun (n : Nat) => some (n : Int))) < 0 := by
  intro xs
  induction xs with
  | nil => simp [compareZeroPad]
  | cons x xs ih =>
    simp only [List.map_cons, compareZeroPad]
    by_cases hx : (x : Int) ≠ 0
    · rw [if_pos hx]
      omega
    · rw [if_neg hx]
      exact ih

theorem specLtPad_false : ∀ xs : List Nat, specLtPad xs = false := by
  intro xs
  induction xs with
  | nil => rfl
  | cons x xs ih => simp [specLtPad, ih]

theorem comparePadZero_neg_iff : ∀ ys : List Nat,
    (comparePadZero (ys.map (fun (n : Nat) => some (n : Int))) < 0 ↔ specPadLt ys = true) := by
  intro ys
  induction ys with
  | nil => simp [comparePadZero, specPadLt]
  | cons y ys ih =>
    simp only [List.map_cons, comparePadZero, specPadLt]
    by_cases hy : (y : Int) ≠ 0
    · have hy' : 0 < y := by omega
      rw [if_pos hy]
      constructor
      · intro _
        simp [hy']
      · intro _
        omega
    · have hy0 : y = 0 := by omega
      rw [if_neg hy]
      rw [ih]
      subst hy0
      simp

theorem comparePathParts_neg_iff : ∀ xs ys : List Nat,
    (comparePathParts (xs.map (fun (n : Nat) => some (n : Int)))
        (ys.map (fun (n : Nat) => some (n : Int))) < 0 ↔
      specPathLt xs ys = true) := by
  intro xs
  induction xs with
  | nil =>
    intro ys
    simp only [List.map_nil, comparePathParts, specPathLt]
    exact comparePadZero_neg_iff ys
  | cons x xs ih =>
    intro ys
    cases ys with
    | nil =>
      simp only [List.map_cons, List.map_nil, comparePathParts, specPathLt]
      rw [specLtPad_false]
      constructor
      · intro h
        exact absurd h (compareZeroPad_nonneg (x :: xs))
      · intro h
        simp at h
    | cons y ys =>
      simp only [List.map_cons, comparePathParts, specPathLt]
      by_cases hxy : (x : Int) ≠ (y : Int)
      · rw [if_pos hxy]
        have hne : ¬ x = y := by omega
        constructor
        · intro h
          have : x < y := by omega
          simp [this]
        · intro h
          rcases (Bool.or_eq_true _ _).mp h with h1 | h1
          · have : x < y := by exact of_decide_eq_true h1
            omega
          · simp only [Bool.and_eq_true, decide_eq_true_eq] at h1
            exact absurd h1.1 hne
      · rw [if_neg hxy]
        have hx : x = y := by omega
        rw [ih ys]
        subst hx
        simp [Nat.lt_irrefl]

theorem splitOnChar_no_sep {sep : Char} : ∀ {cs : List Char}, sep ∉ cs →
    splitOnChar sep cs = [cs] := by
  intro cs
  induction cs with
  | nil => intro _; rfl
  | cons c rest ih =>
    intro h
    have hc : ¬ c = sep := fun he => h (he ▸ List.mem_cons_self c rest)
    have hrest : sep ∉ rest := fun hm => h (List.mem_cons_of_mem c hm)
    simp only [splitOnChar, hc, if_false, ih hrest]

theorem splitOnChar_append_sep {sep : Char} {a b : List Char} (h : sep ∉ a) :
    splitOnChar sep (a ++ sep :: b) = a :: splitOnChar sep b := by
  induction a with
  | nil => simp [splitOnChar]
  | cons c rest ih =>
    have hc : ¬ c = sep := fun he => h (he ▸ List.mem_cons_self c rest)
    have hrest : sep ∉ rest := fun hm => h (List.mem_cons_of_mem c hm)
    simp only [List.cons_append, splitOnChar, hc, if_false, List.append_eq]
    rw [ih hrest]

theorem no_dot_of_digits {cs : List Char} (h : cs.all isDigitC = true) : '.' ∉ cs := by
  intro hm
  have := List.all_eq_true.mp h '.' hm
  exact absurd this (by decide)

theorem dotJoin_cons_data (n : Nat) (m : Nat) (rest : List Nat) :
    (dotJoin (n :: m :: rest)).data =
      (natToString n).data ++ '.' :: (dotJoin (m :: rest)).data := by
  show (natToString n ++ "." ++ dotJoin (m :: rest)).data = _
  simp [strData_append, show ".".data = ['.'] from rfl]

theorem splitOnChar_dotJoin : ∀ xs : List Nat, xs ≠ [] →
    splitOnChar '.' (dotJoin xs).data = xs.map (fun n => (natToString n).data) := by
  intro xs
  induction xs with
  | nil => intro h; exact absurd rfl h
  | cons n rest ih =>
    intro _
    cases rest with
    | nil =>
      show splitOnChar '.' (natToString n).data = _
      rw [splitOnChar_no_sep (no_dot_of_digits (natToString_all_digits n))]
      rfl
    | cons m rest' =>
      rw [dotJoin_cons_data,
        splitOnChar_append_sep (no_dot_of_digits (natToString_all_digits n)),
        ih (by simp)]
      rfl

theorem findIdxChar_append {c : Char} : ∀ {l : List Char} (r : List Char), c ∉ l →
    findIdxChar c (l ++ c :: r) = some l.length := by
  intro l
  induction l with
  | nil => intro r _; simp [findIdxChar]
  | cons d rest ih =>
    intro r h
    have hd : ¬ d = c := fun he => h (he ▸ List.mem_cons_self d rest)
    have hrest : c ∉ rest := fun hm => h (List.mem_cons_of_mem d hm)
    simp only [List.cons_append, findIdxChar, hd, if_false, List.append_eq]
    rw [ih r hrest]
    rfl

theorem mkRef_data (p : String) (xs : List Nat) :
    (mkRef p xs).data = '§' :: (p.data ++ '.' :: (dotJoin xs).data) := by
  show ("§" ++ p ++ "." ++ dotJoin xs).data = _
  simp [strData_append, show "§".data = ['§'] from rfl, show ".".data = ['.'] from rfl]

theorem jsIndexOfChar_mkRef (p : String) (xs : List Nat) (hp : validPrefix p = true) :
    jsIndexOfChar (mkRef p xs) '.' = ((p.data.length + 1 : Nat) : Int) := by
  unfold jsIndexOfChar
  rw [mkRef_data]
  have h1 : ¬ ('§' : Char) = '.' := by decide
  simp only [findIdxChar, h1, if_false]
  rw [findIdxChar_append (dotJoin xs).data (validPrefix_no_dot hp)]
  rfl

theorem intClamp_eval (x n : Int) (h0 : 0 ≤ x) (hn : x ≤ n) :
    intClamp x n = x.toNat := by
  unfold intClamp
  rw [if_neg (by omega), if_neg (by omega)]

theorem jsSubstring_mk (d : List Char) (a b : Int) :
    jsSubstring ⟨d⟩ a b =
      (let a' := intClamp a (d.length : Int)
       let b' := intClamp b (d.length : Int)
       (⟨(d.take (if a' ≤ b' then b' else a')).drop (if a' ≤ b' then a' else b')⟩ :
        String)) := rfl

theorem jsSubstring_take (c : Char) (l : List Char) (k : Nat) (hk : k ≤ l.length) :
    jsSubstring ⟨c :: l⟩ 1 ((k + 1 : Nat) : Int) = ⟨l.take k⟩ := by
  rw [jsSubstring_mk]
  have hlen : (((c :: l).length : Nat) : Int) = (l.length : Int) + 1 := by simp
  have hc1 : intClamp 1 ((c :: l).length : Int) = 1 := by
    rw [intClamp_eval _ _ (by omega) (by omega)]
    rfl
  have hc2 : intClamp ((k + 1 : Nat) : Int) ((c :: l).length : Int) = k + 1 := by
    rw [intClamp_eval _ _ (by omega) (by omega)]
    omega
  simp only [hc1, hc2]
  rw [if_pos (by omega), if_pos (by omega)]
  simp

theorem jsSubstring_drop (l : List Char) (k : Nat) (hk : k ≤ l.length) :
    jsSubstring ⟨l⟩ ((k : Nat) : Int) ((l.length : Nat) : Int) = ⟨l.drop k⟩ := by
  rw [jsSubstring_mk]
  have hc1 : intClamp ((k : Nat) : Int) ((l.length : Nat) : Int) = k := by
    rw [intClamp_eval _ _ (by omega) (by omega)]
    omega
  have hc2 : intClamp ((l.length : Nat) : Int) ((l.length : Nat) : Int) = l.length := by
    rw [intClamp_eval _ _ (by omega) (by omega)]
    omega
  simp only [hc1, hc2]
  rw [if_pos (by omega), if_pos (by omega)]
  simp

theorem jsNumOfPart_natToString (n : Nat) :
    jsNumOfPart (natToString n).data = some (n : Int) := by
  unfold jsNumOfPart
  rw [isEmpty_false_of_ne_nil (natToString_ne_nil n)]
  simp [natToString_all_digits n, natToString_parse n]

theorem ordCompareChars_self : ∀ l : List Char, ordCompareChars l l = 0 := by
  intro l
  induction l with
  | nil => rfl
  | cons c rest ih => simp [ordCompareChars, ih]

theorem sectionPathParts_mkRef (p : String) (xs : List Nat) (hp : validPrefix p = true)
    (hxs : xs ≠ []) :
    sectionPathParts (mkRef p xs) = xs.map (fun (n : Nat) => some (n : Int)) := by
  unfold sectionPathParts
  rw [jsIndexOfChar_mkRef p xs hp]
  dsimp only
  have hcast : (((p.data.length + 1 : Nat) : Int) + 1) = ((p.data.length + 2 : Nat) : Int) := by
    push_cast
    ring
  rw [hcast]
  have hmk : mkRef p xs = ⟨'§' :: (p.data ++ '.' :: (dotJoin xs).data)⟩ := by
    apply strExt
    rw [mkRef_data]
  rw [hmk]
  have hlen : ((⟨'§' :: (p.data ++ '.' :: (dotJoin xs).data)⟩ : String)).data.length =
      ('§' :: (p.data ++ '.' :: (dotJoin xs).data)).length := rfl
  rw [hlen]
  rw [jsSubstring_drop ('§' :: (p.data ++ '.' :: (dotJoin xs).data)) (p.data.length + 2)
    (by simp)]
  have hdrop : ('§' :: (p.data ++ '.' :: (dotJoin xs).data)).drop (p.data.length + 2) =
      (dotJoin xs).data := by
    rw [show p.data.length + 2 = (p.data.length + 1) + 1 by omega, List.drop_succ_cons,
      show p.data ++ '.' :: (dotJoin xs).data = (p.data ++ ['.']) ++ (dotJoin xs).data by simp,
      show p.data.length + 1 = (p.data ++ ['.']).length by simp]
    exact List.drop_left (p.data ++ ['.']) (dotJoin xs).data
  rw [hdrop]
  show (splitOnChar '.' (dotJoin xs).data).map jsNumOfPart = _
  rw [splitOnChar_dotJoin xs hxs, List.map_map]
  apply List.map_congr_left
  intro n _
  exact jsNumOfPart_natToString n

theorem sectionPrefix_mkRef (p : String) (xs : List Nat) (hp : validPrefix p = true) :
    jsSubstring (mkRef p xs) 1 (jsIndexOfChar (mkRef p xs) '.') = p := by
  rw [jsIndexOfChar_mkRef p xs hp]
  have hmk : mkRef p xs = ⟨'§' :: (p.data ++ '.' :: (dotJoin xs).data)⟩ := by
    apply strExt
    rw [mkRef_data]
  rw [hmk]
  rw [show ((p.data.length + 1 : Nat) : Int) = ((p.data.length + 1 : Nat) : Int) from rfl]
  rw [jsSubstring_take '§' (p.data ++ '.' :: (dotJoin xs).data) p.data.length (by simp)]
  have : (p.data ++ '.' :: (dotJoin xs).data).take p.data.length = p.data := by
    rw [show p.data ++ '.' :: (dotJoin xs).data = p.data ++ ('.' :: (dotJoin xs).data) from rfl]
    exact List.take_left p.data _
  rw [this, strMk_data]

/-- Claim C6: sortSections sorts the concrete example correctly; for
references sharing a prefix the comparator orders by numeric path
component-wise numerically with missing trailing components read as 0
(specPathLt, the specification-side order); and a reference whose prefix
is ordinally smaller sorts first regardless of paths. -/
theorem claim_C6_sort_order :
    sortSections ["§APP.10", "§APP.2", "§APP.1"] = ["§APP.1", "§APP.2", "§APP.10"] ∧
    (∀ (p : String) (xs ys : List Nat), validPrefix p = true → xs ≠ [] → ys ≠ [] →
        (sectionCompare (mkRef p xs) (mkRef p ys) < 0 ↔ specPathLt xs ys = true)) ∧
    (∀ (p q : String) (xs ys : List Nat), validPrefix p = true → validPrefix q = true →
        ordCompareChars p.data q.data < 0 →
        sectionCompare (mkRef p xs) (mkRef q ys) < 0) := by
  refine ⟨by rfl, ?_, ?_⟩
  · intro p xs ys hp hxs hys
    unfold sectionCompare
    dsimp only
    rw [sectionPrefix_mkRef p xs hp, sectionPrefix_mkRef p ys hp]
    rw [ordCompareChars_self p.data]
    rw [if_neg (by simp)]
    rw [sectionPathParts_mkRef p xs hp hxs, sectionPathParts_mkRef p ys hp hys]
    exact comparePathParts_neg_iff xs ys
  · intro p q xs ys hp hq hpq
    unfold sectionCompare
    dsimp only
    rw [sectionPrefix_mkRef p xs hp, sectionPrefix_mkRef q ys hq]
    rw [if_pos (by omega)]
    exact hpq

/-- Witness for C6: `§APP.2` compares before `§APP.10` (numeric, not
lexical), and `§APP.4` compares before its first child `§APP.4.1`. -/
theorem claim_C6_witness :
    sectionCompare "§APP.2" "§APP.10" < 0 ∧ sectionCompare "§APP.4" "§APP.4.1" < 0 :=
  ⟨(claim_C6_sort_order.2.1 "APP" [2] [10] (by rfl) (by simp) (by simp)).mpr (by rfl),
   (claim_C6_sort_order.2.1 "APP" [4] [4, 1] (by rfl) (by simp) (by simp)).mpr (by rfl)⟩

theorem strNil_append (s : String) : "" ++ s = s := by
  apply strExt
  rw [strData_append]
  rfl

theorem strAppend_empty (s : String) : s ++ "" = s := by
  apply strExt
  rw [strData_append]
  simp

theorem estTok_append (a b : String) :
    estimateTokens (a ++ b) ≤ estimateTokens a + estimateTokens b := by
  unfold estimateTokens
  rw [strData_append, List.length_append]
  have h1 := Nat.div_add_mod (a.data.length + 3) 4
  have h2 : (a.data.length + 3) % 4 < 4 := Nat.mod_lt _ (by omega)
  have h3 := Nat.div_add_mod (b.data.length + 3) 4
  have h4 : (b.data.length + 3) % 4 < 4 := Nat.mod_lt _ (by omega)
  have h5 : a.data.length + b.data.length + 3 ≤
      4 * ((a.data.length + 3) / 4) + 4 * ((b.data.length + 3) / 4) + 3 := by omega
  have h6 := Nat.div_le_div_right (c := 4) h5
  have h7 : (4 * ((a.data.length + 3) / 4) + 4 * ((b.data.length + 3) / 4) + 3) / 4 =
      (a.data.length + 3) / 4 + (b.data.length + 3) / 4 := by
    rw [show 4 * ((a.data.length + 3) / 4) + 4 * ((b.data.length + 3) / 4) + 3 =
      3 + ((a.data.length + 3) / 4 + (b.data.length + 3) / 4) * 4 by ring,
      Nat.add_mul_div_right 3 _ (by omega)]
    omega
  omega

theorem splitSectionsAux_join : ∀ (s : List Char) (atStart : Bool) (cur : List Char),
    (splitSectionsAux s atStart cur).join = cur.reverse ++ s := by
  intro s
  induction s with
  | nil =>
    intro atStart cur
    cases cur with
    | nil => rfl
    | cons c rest => simp [splitSectionsAux]
  | cons c rest ih =>
    intro atStart cur
    unfold splitSectionsAux
    split
    · simp [ih]
    · rw [ih]
      simp

theorem splitSectionsAux_ne_nil : ∀ (s : List Char) (atStart : Bool) (cur : List Char),
    ∀ piece ∈ splitSectionsAux s atStart cur, piece ≠ [] := by
  intro s
  induction s with
  | nil =>
    intro atStart cur piece hmem
    unfold splitSectionsAux at hmem
    split at hmem
    · simp at hmem
    · rename_i hcur
      simp at hmem
      subst hmem
      intro hrev
      rw [List.reverse_eq_nil_iff] at hrev
      rw [hrev] at hcur
      exact hcur rfl
  | cons c rest ih =>
    intro atStart cur piece hmem
    unfold splitSectionsAux at hmem
    split at hmem
    · rename_i hguard
      rcases List.mem_cons.mp hmem with h1 | h1
      · subst h1
        intro hrev
        rw [List.reverse_eq_nil_iff] at hrev
        simp only [Bool.and_eq_true] at hguard
        rw [hrev] at hguard
        simp at hguard
      · exact ih (c = '\n') [c] piece h1
    · exact ih (c = '\n') (c :: cur) piece hmem

theorem concatAll_map_mk : ∀ ls : List (List Char),
    concatAll (ls.map (fun cs => (⟨cs⟩ : String))) = ⟨ls.join⟩ := by
  intro ls
  induction ls with
  | nil => rfl
  | cons c rest ih =>
    simp only [List.map_cons, concatAll, ih, List.flatten]
    apply strExt
    rw [strData_append]

theorem concatAll_splitSections (content : String) :
    concatAll (splitSections content) = content := by
  unfold splitSections
  rw [concatAll_map_mk, splitSectionsAux_join]
  simp [strMk_data]

theorem splitSections_ne_empty (content : String) :
    ∀ piece ∈ splitSections content, piece ≠ "" := by
  intro piece hmem
  unfold splitSections at hmem
  rw [List.mem_map] at hmem
  obtain ⟨cs, hcs, hval⟩ := hmem
  subst hval
  intro he
  rw [strEmpty_iff] at he
  exact splitSectionsAux_ne_nil content.data true [] cs hcs (by simpa using he)
theorem allMoreFrom_push : ∀ (acc : List ChunkResult) (i : Nat) (s : String),
    allMoreFrom i acc = true →
    allMoreFrom i (acc ++ [⟨s, true, some ("chunk:" ++ natToString (i + acc.length))⟩]) =
      true := by
  intro acc
  induction acc with
  | nil =>
    intro i s _
    simp [allMoreFrom]
  | cons c rest ih =>
    intro i s h
    simp only [allMoreFrom, Bool.and_eq_true] at h
    obtain ⟨⟨h1, h2⟩, h3⟩ := h
    have hlen : i + (c :: rest).length = (i + 1) + rest.length := by
      simp
      omega
    rw [hlen]
    simp only [List.cons_append, allMoreFrom, Bool.and_eq_true]
    exact ⟨⟨h1, h2⟩, ih (i + 1) s h3⟩

theorem shapeGo_final : ∀ (acc : List ChunkResult) (i : Nat) (s : String),
    allMoreFrom i acc = true →
    chunksShape.go i (acc ++ [⟨s, false, none⟩]) = true := by
  intro acc
  induction acc with
  | nil =>
    intro i s _
    simp [chunksShape.go]
  | cons c rest ih =>
    intro i s h
    simp only [allMoreFrom, Bool.and_eq_true] at h
    obtain ⟨⟨h1, h2⟩, h3⟩ := h
    cases rest with
    | nil =>
      simp only [List.nil_append, List.cons_append, chunksShape.go, Bool.and_eq_true]
      refine ⟨⟨h1, by simp [h2]⟩, ?_⟩
      simp
    | cons d rest' =>
      simp only [List.cons_append, chunksShape.go, Bool.and_eq_true]
      refine ⟨⟨h1, by simp [h2]⟩, ?_⟩
      have := ih (i + 1) s h3
      simpa using this

theorem groupChunks_shape (maxT : Nat) : ∀ (pieces : List String) (cur : String)
    (acc : List ChunkResult), cur ≠ "" → (∀ x ∈ pieces, x ≠ "") →
    allMoreFrom 1 acc = true →
    chunksShape (groupChunks maxT pieces cur acc) = true := by
  intro pieces
  induction pieces with
  | nil =>
    intro cur acc hcur _ hacc
    unfold groupChunks
    rw [if_pos hcur]
    exact shapeGo_final acc 1 cur hacc
  | cons sec rest ih =>
    intro cur acc hcur hall hacc
    unfold groupChunks
    split
    · apply ih sec _ (hall sec (by simp)) (fun x hx => hall x (by simp [hx]))
      have := allMoreFrom_push acc 1 cur hacc
      rwa [Nat.add_comm 1 acc.length] at this
    · exact ih (cur ++ sec) acc (strAppend_ne_empty_left cur sec hcur)
        (fun x hx => hall x (by simp [hx])) hacc

theorem groupChunks_min_len (maxT : Nat) : ∀ (pieces : List String) (cur : String)
    (acc : List ChunkResult), cur ≠ "" → (∀ x ∈ pieces, x ≠ "") →
    acc.length + 1 ≤ (groupChunks maxT pieces cur acc).length := by
  intro pieces
  induction pieces with
  | nil =>
    intro cur acc hcur _
    unfold groupChunks
    rw [if_pos hcur]
    simp
  | cons sec rest ih =>
    intro cur acc hcur hall
    unfold groupChunks
    split
    · have := ih sec (acc ++ [⟨cur, true, some ("chunk:" ++ natToString (acc.length + 1))⟩])
        (hall sec (by simp)) (fun x hx => hall x (by simp [hx]))
      simp only [List.length_append, List.length_cons, List.length_nil] at this
      omega
    · exact Nat.le_trans (by omega)
        (ih (cur ++ sec) acc (strAppend_ne_empty_left cur sec hcur)
          (fun x hx => hall x (by simp [hx])))

theorem groupChunks_two_chunks (maxT : Nat) : ∀ (pieces : List String) (cur : String)
    (acc : List ChunkResult), cur ≠ "" → pieces ≠ [] → (∀ x ∈ pieces, x ≠ "") →
    maxT < estimateTokens (cur ++ concatAll pieces) →
    acc.length + 2 ≤ (groupChunks maxT pieces cur acc).length := by
  intro pieces
  induction pieces with
  | nil => intro cur acc _ h _ _; exact absurd rfl h
  | cons sec rest ih =>
    intro cur acc hcur _ hall hover
    cases rest with
    | nil =>
      have hle : estimateTokens (cur ++ concatAll [sec]) ≤
          estimateTokens cur + estimateTokens sec := by
        have heq : cur ++ concatAll [sec] = cur ++ sec := by
          show cur ++ (sec ++ "") = cur ++ sec
          rw [strAppend_empty]
        rw [heq]
        exact estTok_append cur sec
      have hcond : (decide (estimateTokens cur + estimateTokens sec > maxT) &&
          decide (cur ≠ "")) = true := by
        simp only [Bool.and_eq_true, decide_eq_true_eq]
        exact ⟨by omega, hcur⟩
      unfold groupChunks
      rw [if_pos (by simpa using hcond)]
      unfold groupChunks
      rw [if_pos (hall sec (by simp))]
      simp
    | cons p2 rest' =>
      unfold groupChunks
      split
      · have := groupChunks_min_len maxT (p2 :: rest') sec
          (acc ++ [⟨cur, true, some ("chunk:" ++ natToString (acc.length + 1))⟩])
          (hall sec (by simp)) (fun x hx => hall x (by simp [hx]))
        simp only [List.length_append, List.length_cons, List.length_nil] at this
        omega
      · apply ih (cur ++ sec) acc (strAppend_ne_empty_left cur sec hcur) (by simp)
          (fun x hx => hall x (by simp [hx]))
        have heq : (cur ++ sec) ++ concatAll (p2 :: rest') =
            cur ++ concatAll (sec :: p2 :: rest') := by
          show (cur ++ sec) ++ concatAll (p2 :: rest') =
            cur ++ (sec ++ concatAll (p2 :: rest'))
          rw [String.append_assoc]
        rw [heq]
        exact hover
theorem listIsEmpty_false {α : Type} {l : List α} (h : l ≠ []) : l.isEmpty = false := by
  cases l with
  | nil => exact absurd rfl h
  | cons x xs => rfl

theorem digits_no_colon {cs : List Char} (h : cs.all isDigitC = true) : ':' ∉ cs := by
  intro hm
  have := List.all_eq_true.mp h ':' hm
  exact absurd this (by decide)

theorem parseCont_chunk (k : Nat) :
    parseContinuationIdx ("chunk:" ++ natToString k) = some k := by
  unfold parseContinuationIdx
  have hdata : ("chunk:" ++ natToString k).data =
      ['c', 'h', 'u', 'n', 'k'] ++ ':' :: (natToString k).data := by
    rw [strData_append]
    rfl
  rw [hdata, splitOnChar_append_sep (by decide),
    splitOnChar_no_sep (digits_no_colon (natToString_all_digits k))]
  simp only [List.get?]
  unfold jsParseIntOpt
  rw [show ((⟨(natToString k).data⟩ : String)).data = (natToString k).data from rfl,
    takeDigits_all_digits (natToString_all_digits k)]
  simp only [isEmpty_false_of_ne_nil (natToString_ne_nil k)]
  rw [natToString_parse k]
  rfl

/-- Counterexample to C3 as stated: a content with no section headers that
exceeds the budget still comes back as a single chunk with hasMore=false
(the splitter finds no boundary, the single piece never closes a chunk). -/
theorem claim_C3_counterexample :
    chunkContent "aaaaaaaa" 1 = [⟨"aaaaaaaa", false, none⟩] ∧
      1 < estimateTokens "aaaaaaaa" :=
  ⟨by rfl, by decide⟩

/-- Claim C3 (amended): content within budget is returned as one chunk with
hasMore=false and no continuation; content over budget whose section split
yields at least two pieces is returned as at least two chunks, all but the
last flagged hasMore with tokens chunk:1, chunk:2, ... in order and the
last flagged final; and handleFetch rejects a continuation index at or
beyond the chunk count with an error naming the index and the count. -/
theorem claim_C3_chunking :
    (∀ (content : String) (maxTokens : Nat), estimateTokens content ≤ maxTokens →
        chunkContent content maxTokens = [⟨content, false, none⟩]) ∧
    (∀ (content : String) (maxTokens : Nat), maxTokens < estimateTokens content →
        2 ≤ (splitSections content).length →
        2 ≤ (chunkContent content maxTokens).length ∧
          chunksShape (chunkContent content maxTokens) = true) ∧
    (∀ (sections expanded : List String) (index : SectionIndex)
        (fsMap : List (String × String)) (baseDir content : String) (maxT fuel k : Nat),
        sections ≠ [] →
        expandSectionsWithIndex sections index = .ok expanded →
        fetchSectionsWithIndex expanded index fsMap baseDir fuel = some (.ok content) →
        (chunkContent content maxT).length ≤ k →
        handleFetch sections (some ("chunk:" ++ natToString k)) index fsMap baseDir maxT fuel =
          some (.error ("Failed to fetch sections: Invalid continuation token: chunk:" ++
            natToString k ++ " (requested chunk " ++ natToString k ++ " but only " ++
            natToString (chunkContent content maxT).length ++ " chunks exist)"))) := by
  refine ⟨?_, ?_, ?_⟩
  · intro content maxTokens h
    unfold chunkContent
    rw [if_pos h]
  · intro content maxTokens hover hsplit
    cases hs : splitSections content with
    | nil => rw [hs] at hsplit; simp at hsplit
    | cons p1 rest =>
      cases rest with
      | nil => rw [hs] at hsplit; simp at hsplit
      | cons p2 rest' =>
        have hall : ∀ x ∈ p1 :: p2 :: rest', x ≠ "" := by
          rw [← hs]
          exact splitSections_ne_empty content
        have hjoin : p1 ++ concatAll (p2 :: rest') = content := by
          have := concatAll_splitSections content
          rw [hs] at this
          exact this
        unfold chunkContent
        rw [if_neg (by omega), hs]
        have hstep : groupChunks maxTokens (p1 :: p2 :: rest') "" [] =
            groupChunks maxTokens (p2 :: rest') p1 [] := by
          conv_lhs => rw [groupChunks]
          rw [if_neg (by simp)]
          rw [strNil_append]
        rw [hstep]
        constructor
        · have := groupChunks_two_chunks maxTokens (p2 :: rest') p1 []
            (hall p1 (by simp)) (by simp) (fun x hx => hall x (by simp [hx]))
            (by rw [hjoin]; exact hover)
          simpa using this
        · exact groupChunks_shape maxTokens (p2 :: rest') p1 [] (hall p1 (by simp))
            (fun x hx => hall x (by simp [hx])) rfl
  · intro sections expanded index fsMap baseDir content maxT fuel k hne hexp hfetch hk
    unfold handleFetch
    rw [listIsEmpty_false hne]
    simp only [Bool.false_eq_true, if_false]
    rw [hexp]
    dsimp only
    rw [hfetch]
    dsimp only
    rw [jsStartsWith_append "chunk:" (natToString k)]
    simp only [if_true]
    rw [parseCont_chunk k]
    dsimp only
    rw [if_pos hk]
    simp only [← String.append_assoc]
    rfl

/-- Witness for C3: a fitting content, a two-section over-budget content,
and an out-of-range continuation against a one-chunk result. -/
theorem claim_C3_witness :
    chunkContent "ab" 10 = [⟨"ab", false, none⟩] ∧
    (2 ≤ (chunkContent "## \x7b§A.1\x7dxxxxx\n## \x7b§A.2\x7dyyyyy" 3).length ∧
      chunksShape (chunkContent "## \x7b§A.1\x7dxxxxx\n## \x7b§A.2\x7dyyyyy" 3) = true) ∧
    handleFetch ["§APP.1"] (some "chunk:99") idxB fsB "/p" 1000 10 =
      some (.error ("Failed to fetch sections: Invalid continuation token: chunk:99 " ++
        "(requested chunk 99 but only 1 chunks exist)")) :=
  ⟨claim_C3_chunking.1 "ab" 10 (by decide),
   claim_C3_chunking.2.1 "## \x7b§A.1\x7dxxxxx\n## \x7b§A.2\x7dyyyyy" 3 (by decide) (by decide),
   claim_C3_chunking.2.2 ["§APP.1"] ["§APP.1"] idxB fsB "/p"
     "## \x7b§APP.1\x7d\nSee §ZZZ for details" 1000 10 99 (by simp) (by rfl) (by rfl)
     (by decide)⟩

theorem isParentSection_irrefl (a : String) : isParentSection a a = false := by
  cases h : isParentSection a a with
  | false => rfl
  | true => exact absurd (isParentSection_length h) (by omega)

theorem gatherAux_no_parent_pairs (fsMap : List (String × String)) (index : SectionIndex)
    (baseDir : String) (lenient : Bool) :
    ∀ (fuel : Nat) (queue : List QItem) (processed : List String)
      (gathered : List (String × GatheredSection)) (warnings : List String)
      (m : List (String × GatheredSection)) (ws : List String),
    (∀ k ∈ gathered.map Prod.fst, k ∈ processed) →
    (∀ a ∈ gathered.map Prod.fst, ∀ b ∈ gathered.map Prod.fst, isParentSection a b = false) →
    gatherAux fsMap index baseDir lenient fuel queue processed gathered warnings =
      some (.ok (m, ws)) →
    ∀ a ∈ m.map Prod.fst, ∀ b ∈ m.map Prod.fst, isParentSection a b = false := by
  intro fuel
  induction fuel with
  | zero =>
    intro queue processed gathered warnings m ws _ _ hrun
    simp [gatherAux] at hrun
  | succ f ih =>
    intro queue processed gathered warnings m ws hsub hinv hrun
    cases queue with
    | nil =>
      simp only [gatherAux, Option.some.injEq, Except.ok.injEq, Prod.mk.injEq] at hrun
      obtain ⟨hm, -⟩ := hrun
      rw [← hm]
      exact hinv
    | cons item rest =>
      unfold gatherAux at hrun
      dsimp only at hrun
      by_cases hc1 : processed.contains item.ref
      · rw [if_pos hc1] at hrun
        exact ih rest processed gathered warnings m ws hsub hinv hrun
      · rw [if_neg hc1] at hrun
        by_cases hc2 : processed.any (fun ex => isParentSection ex item.ref)
        · rw [if_pos hc2] at hrun
          exact ih rest processed gathered warnings m ws hsub hinv hrun
        · rw [if_neg hc2] at hrun
          have hnopar : ∀ ex ∈ processed, isParentSection ex item.ref = false := by
            intro ex hex
            by_contra hne
            have : isParentSection ex item.ref = true := by
              cases hval : isParentSection ex item.ref
              · exact absurd hval hne
              · rfl
            exact hc2 (List.any_eq_true.mpr ⟨ex, hex, this⟩)
          -- shared facts about the filtered state
          have hsub1 : ∀ k ∈ (gathered.filter
              (fun kv => !isParentSection item.ref kv.1)).map Prod.fst,
              k ∈ (processed.filter (fun ex => !isParentSection item.ref ex)) ++ [item.ref] := by
            intro k hk
            rw [List.mem_map] at hk
            obtain ⟨kv, hkv, hk1⟩ := hk
            rw [List.mem_filter] at hkv
            apply List.mem_append_left
            rw [List.mem_filter]
            constructor
            · exact hsub k (hk1 ▸ List.mem_map_of_mem Prod.fst hkv.1)
            · rw [← hk1]
              exact hkv.2
          have hinv1 : ∀ a ∈ (gathered.filter
              (fun kv => !isParentSection item.ref kv.1)).map Prod.fst,
              ∀ b ∈ (gathered.filter
                (fun kv => !isParentSection item.ref kv.1)).map Prod.fst,
              isParentSection a b = false := by
            intro a ha b hb
            rw [List.mem_map] at ha hb
            obtain ⟨ka, hka, ha1⟩ := ha
            obtain ⟨kb, hkb, hb1⟩ := hb
            rw [List.mem_filter] at hka hkb
            exact hinv a (ha1 ▸ List.mem_map_of_mem Prod.fst hka.1)
              b (hb1 ▸ List.mem_map_of_mem Prod.fst hkb.1)
          cases hp : parseSectionNota item.ref none with
          | error e =>
            rw [hp] at hrun
            dsimp only at hrun
            by_cases hl : lenient
            · rw [if_pos hl] at hrun
              exact ih rest _ _ _ m ws hsub1 hinv1 hrun
            · rw [if_neg hl] at hrun
              simp at hrun
          | ok parsed =>
            rw [hp] at hrun
            dsimp only at hrun
            cases hres : resolveSection item.ref index >>= fun fp =>
                (resolveSectionWithContent item.ref index fsMap).map (fun c => (fp, c)) with
            | error e =>
              rw [hres] at hrun
              dsimp only at hrun
              by_cases hl : lenient
              · rw [if_pos hl] at hrun
                exact ih rest _ _ _ m ws hsub1 hinv1 hrun
              · rw [if_neg hl] at hrun
                simp at hrun
            | ok fpc =>
              rw [hres] at hrun
              dsimp only at hrun
              cases hemb : expandEmbedded (findEmbeddedReferences fpc.2) index with
              | error e =>
                rw [hemb] at hrun
                simp at hrun
              | ok expanded =>
                rw [hemb] at hrun
                dsimp only at hrun
                apply ih _ _ _ _ m ws ?hsub2 ?hinv2 hrun
                case hsub2 =>
                  intro k hk
                  rw [List.map_append, List.mem_append] at hk
                  rcases hk with hk | hk
                  · exact hsub1 k hk
                  · simp at hk
                    rw [hk]
                    exact List.mem_append_right _ (by simp)
                case hinv2 =>
                  intro a ha b hb
                  rw [List.map_append, List.mem_append] at ha hb
                  rcases ha with ha | ha <;> rcases hb with hb | hb
                  · exact hinv1 a ha b hb
                  · simp at hb
                    rw [hb]
                    rw [List.mem_map] at ha
                    obtain ⟨ka, hka, ha1⟩ := ha
                    rw [List.mem_filter] at hka
                    exact hnopar a (ha1 ▸ hsub ka.1 (List.mem_map_of_mem Prod.fst hka.1))
                  · simp at ha
                    rw [ha]
                    rw [List.mem_map] at hb
                    obtain ⟨kb, hkb, hb1⟩ := hb
                    rw [List.mem_filter] at hkb
                    rw [← hb1]
                    have := hkb.2
                    cases hval : isParentSection item.ref kb.1
                    · rfl
                    · rw [hval] at this
                      simp at this
                  · simp at ha hb
                    rw [ha, hb]
                    exact isParentSection_irrefl item.ref

/-- Claim C1: the map returned by gatherSectionsWithIndex never contains both a
reference and a strict descendant of that reference — its keys are pairwise
non-ancestral — and resolving [§APP.4, §APP.4.1] in either input order yields a
result containing only §APP.4. -/
theorem claim_C1_gather_no_descendants :
    (∀ (refs : List String) (index : SectionIndex) (fsMap : List (String × String))
       (baseDir : String) (lenient : Bool) (fuel : Nat)
       (m : List (String × GatheredSection)) (ws : List String),
       gatherSectionsWithIndex refs index fsMap baseDir lenient fuel = some (.ok (m, ws)) →
       ∀ a ∈ m.map Prod.fst, ∀ b ∈ m.map Prod.fst, isParentSection a b = false) ∧
    gatherKeys (gatherSectionsWithIndex ["§APP.4", "§APP.4.1"] idxA fsA "/p" false 10) =
      some (.ok ["§APP.4"]) ∧
    gatherKeys (gatherSectionsWithIndex ["§APP.4.1", "§APP.4"] idxA fsA "/p" false 10) =
      some (.ok ["§APP.4"]) := by
  refine ⟨?_, by rfl, by rfl⟩
  intro refs index fsMap baseDir lenient fuel m ws hrun
  exact gatherAux_no_parent_pairs fsMap index baseDir lenient fuel _ [] [] [] m ws
    (by simp) (by simp) hrun

theorem claim_C1_witness :
    gatherSectionsWithIndex ["§APP.4.1", "§APP.4"] idxA fsA "/p" false 10 =
      some (.ok (gatherA, [])) ∧
    isParentSection "§APP.4" "§APP.4" = false :=
  ⟨by rfl,
   claim_C1_gather_no_descendants.1 ["§APP.4.1", "§APP.4"] idxA fsA "/p" false 10
     gatherA [] (by rfl) "§APP.4" (by simp [gatherA]) "§APP.4" (by simp [gatherA])⟩

/-! ### Fence removal in findEmbeddedReferences (claim C5 support)

One regex pass per tick count: an opener run, a tag up to the first newline,
a lazy body, and a closer `\n` + ticks or end-of-input.  The lemmas below
characterize one pass (`replaceFences`), show the higher-tick passes leave a
string without a four-backtick run unchanged, and chain through
`removeFencedBlocks` and `removeInlineCode` to `findEmbeddedReferences`. -/
theorem ticksList_length (n : Nat) : (ticksList n).length = n := by
  simp [ticksList]

theorem ticksList_succ (n : Nat) : ticksList (n + 1) = backtick :: ticksList n := by
  simp [ticksList, List.replicate_succ]

theorem beq_backtick_false {c : Char} (h : c ≠ backtick) : (backtick == c) = false := by
  simp only [beq_eq_false_iff_ne, ne_eq]
  exact fun e => h e.symm

theorem findSuffixIdx_eq_some (p : List Char → Bool) :
    ∀ (l : List Char) (n : Nat), n ≤ l.length →
      (∀ i < n, p (l.drop i) = false) → p (l.drop n) = true →
      findSuffixIdx p l = some n := by
  intro l
  induction l with
  | nil =>
    intro n hn _ hat
    have hn0 : n = 0 := by simpa using hn
    subst hn0
    simp only [List.drop_nil] at hat
    simp [findSuffixIdx, hat]
  | cons c rest ih =>
    intro n hn hbefore hat
    cases n with
    | zero =>
      simp only [List.drop_zero] at hat
      simp [findSuffixIdx, hat]
    | succ m =>
      have h0 : p (c :: rest) = false := by
        have := hbefore 0 (Nat.succ_pos m)
        simpa using this
      rw [findSuffixIdx, h0]
      simp only [Bool.false_eq_true, if_false]
      rw [ih m (by simpa using hn)
        (fun i hi => by simpa using hbefore (i + 1) (by omega))
        (by simpa using hat)]
      rfl

theorem findSuffixIdx_eq_none (p : List Char → Bool) :
    ∀ (l : List Char), (∀ i, p (l.drop i) = false) → findSuffixIdx p l = none := by
  intro l
  induction l with
  | nil =>
    intro h
    have := h 0
    simp only [List.drop_nil] at this
    simp [findSuffixIdx, this]
  | cons c rest ih =>
    intro h
    have h0 : p (c :: rest) = false := by simpa using h 0
    rw [findSuffixIdx, h0]
    simp only [Bool.false_eq_true, if_false]
    rw [ih (fun i => by simpa using h (i + 1))]
    rfl

theorem isPrefixOf_cons_eq (a b : Char) (as bs : List Char) :
    (a :: as).isPrefixOf (b :: bs) = ((a == b) && as.isPrefixOf bs) := rfl

theorem isPrefixOf_nil_right (a : Char) (as : List Char) :
    (a :: as).isPrefixOf ([] : List Char) = false := rfl

theorem isPrefixOf_append_self (l r : List Char) : l.isPrefixOf (l ++ r) = true := by
  induction l with
  | nil => simp [List.isPrefixOf]
  | cons c l2 ih =>
    rw [List.cons_append, isPrefixOf_cons_eq, ih]
    simp

theorem isPrefixOf_of_append (a b u : List Char) (h : (a ++ b).isPrefixOf u = true) :
    a.isPrefixOf u = true := by
  induction a generalizing u with
  | nil => simp [List.isPrefixOf]
  | cons c a2 ih =>
    cases u with
    | nil =>
      rw [List.cons_append, isPrefixOf_nil_right] at h
      exact absurd h (by simp)
    | cons d u2 =>
      rw [List.cons_append, isPrefixOf_cons_eq] at h
      obtain ⟨h1, h2⟩ := Bool.and_eq_true_iff.mp h
      rw [isPrefixOf_cons_eq, h1, ih u2 h2]
      simp



theorem closer_search_body (t : Nat) (body tl : List Char) (hb : backtick ∉ body)
    (hP : (ticksList (t + 1)).isPrefixOf tl = true) :
    findSuffixIdx (fun u => ('\n' :: ticksList (t + 1)).isPrefixOf u) (body ++ '\n' :: tl) =
      some body.length := by
  apply findSuffixIdx_eq_some
  · simp
  · intro i hi
    rw [List.drop_append_of_le_length (Nat.le_of_lt hi)]
    obtain ⟨c, l', hc⟩ : ∃ c l', body.drop i = c :: l' := by
      cases hd : body.drop i with
      | nil =>
        have : (body.drop i).length = 0 := by rw [hd]; rfl
        rw [List.length_drop] at this
        omega
      | cons c l' => exact ⟨c, l', rfl⟩
    rw [hc, List.cons_append, isPrefixOf_cons_eq]
    by_cases hcnl : c = '\n'
    · subst hcnl
      cases l' with
      | nil =>
        rw [List.nil_append, ticksList_succ, isPrefixOf_cons_eq,
          show (backtick == '\n') = false from by decide]
        simp
      | cons c2 l'' =>
        have hc2 : c2 ≠ backtick := by
          intro e
          apply hb
          apply List.drop_subset i body
          rw [hc, ← e]
          simp
        rw [List.cons_append, ticksList_succ, isPrefixOf_cons_eq,
          beq_backtick_false hc2]
        simp
    · have : ('\n' == c) = false := by
        simp only [beq_eq_false_iff_ne, ne_eq]
        exact fun e => hcnl e.symm
      rw [this]
      simp
  · rw [List.drop_left, isPrefixOf_cons_eq, hP]
    simp

theorem closer_search_none (t : Nat) (body : List Char) (hb : backtick ∉ body) :
    findSuffixIdx (fun u => ('\n' :: ticksList (t + 1)).isPrefixOf u) body = none := by
  apply findSuffixIdx_eq_none
  intro i
  cases hd : body.drop i with
  | nil => rw [isPrefixOf_nil_right]
  | cons c l' =>
    rw [isPrefixOf_cons_eq]
    by_cases hcnl : c = '\n'
    · subst hcnl
      cases l' with
      | nil =>
        rw [ticksList_succ, isPrefixOf_nil_right]
        simp
      | cons c2 l'' =>
        have hc2 : c2 ≠ backtick := by
          intro e
          apply hb
          apply List.drop_subset i body
          rw [hd, ← e]
          simp
        rw [ticksList_succ, isPrefixOf_cons_eq, beq_backtick_false hc2]
        simp
    · have : ('\n' == c) = false := by
        simp only [beq_eq_false_iff_ne, ne_eq]
        exact fun e => hcnl e.symm
      rw [this]
      simp

theorem findIdx_newline (rest2 : List Char) :
    ∀ (tag : List Char) (i : Nat), '\n' ∉ tag →
      List.findIdx? (fun c => decide (c = '\n')) (tag ++ '\n' :: rest2) i =
        some (i + tag.length) := by
  intro tag
  induction tag with
  | nil => intro i _; simp [List.findIdx?_cons]
  | cons c tag' ih =>
    intro i h
    have hc : c ≠ '\n' := fun e => h (by rw [e]; simp)
    rw [List.cons_append, List.findIdx?_cons]
    simp only [decide_eq_false hc, Bool.false_eq_true, if_false]
    rw [ih (i + 1) (fun hm => h (List.mem_cons_of_mem c hm))]
    simp only [Option.some.injEq, List.length_cons]
    omega

theorem fenceMatchLen_terminated (t : Nat) (tag body rest : List Char)
    (hnl : '\n' ∉ tag) (hb : backtick ∉ body) :
    fenceMatchLen (t + 1)
        (ticksList (t + 1) ++ (tag ++ '\n' :: (body ++ '\n' :: (ticksList (t + 1) ++ rest)))) =
      some ((t + 1) + tag.length + 1 + body.length + 1 + (t + 1)) := by
  have hpre : (ticksList (t + 1)).isPrefixOf
      (ticksList (t + 1) ++ (tag ++ '\n' :: (body ++ '\n' :: (ticksList (t + 1) ++ rest)))) =
        true :=
    isPrefixOf_append_self _ _
  have hdrop1 : (ticksList (t + 1) ++
      (tag ++ '\n' :: (body ++ '\n' :: (ticksList (t + 1) ++ rest)))).drop (t + 1) =
      tag ++ '\n' :: (body ++ '\n' :: (ticksList (t + 1) ++ rest)) :=
    List.drop_left' (ticksList_length (t + 1))
  have hdrop2 : (ticksList (t + 1) ++
      (tag ++ '\n' :: (body ++ '\n' :: (ticksList (t + 1) ++ rest)))).drop
        ((t + 1) + (0 + tag.length) + 1) =
      body ++ '\n' :: (ticksList (t + 1) ++ rest) := by
    rw [show ticksList (t + 1) ++ (tag ++ '\n' :: (body ++ '\n' :: (ticksList (t + 1) ++ rest))) =
        (ticksList (t + 1) ++ tag ++ ['\n']) ++ (body ++ '\n' :: (ticksList (t + 1) ++ rest)) by
      simp]
    exact List.drop_left' (by simp [ticksList_length]; omega)
  have hP : (ticksList (t + 1)).isPrefixOf (ticksList (t + 1) ++ rest) = true :=
    isPrefixOf_append_self _ _
  unfold fenceMatchLen
  rw [if_pos hpre, hdrop1, findIdx_newline _ tag 0 hnl]
  dsimp only
  rw [hdrop2, closer_search_body t body _ hb hP]
  simp only [Option.some.injEq]
  omega

theorem fenceMatchLen_unterminated (t : Nat) (tag body : List Char)
    (hnl : '\n' ∉ tag) (hb : backtick ∉ body) :
    fenceMatchLen (t + 1) (ticksList (t + 1) ++ (tag ++ '\n' :: body)) =
      some ((t + 1) + tag.length + 1 + body.length) := by
  have hpre : (ticksList (t + 1)).isPrefixOf
      (ticksList (t + 1) ++ (tag ++ '\n' :: body)) = true :=
    isPrefixOf_append_self _ _
  have hdrop1 : (ticksList (t + 1) ++ (tag ++ '\n' :: body)).drop (t + 1) =
      tag ++ '\n' :: body :=
    List.drop_left' (ticksList_length (t + 1))
  have hdrop2 : (ticksList (t + 1) ++ (tag ++ '\n' :: body)).drop
        ((t + 1) + (0 + tag.length) + 1) = body := by
    rw [show ticksList (t + 1) ++ (tag ++ '\n' :: body) =
        (ticksList (t + 1) ++ tag ++ ['\n']) ++ body by simp]
    exact List.drop_left' (by simp [ticksList_length]; omega)
  unfold fenceMatchLen
  rw [if_pos hpre, hdrop1, findIdx_newline _ tag 0 hnl]
  dsimp only
  rw [hdrop2, closer_search_none t body hb]
  simp only [Option.some.injEq, List.length_append, List.length_cons, ticksList_length]
  omega

theorem fenceMatchLen_none_of_head (t : Nat) (s : List Char)
    (h : ∀ c l', s = c :: l' → c ≠ backtick) : fenceMatchLen (t + 1) s = none := by
  cases s with
  | nil =>
    have hfalse : (ticksList (t + 1)).isPrefixOf ([] : List Char) = false := by
      rw [ticksList_succ, isPrefixOf_nil_right]
    unfold fenceMatchLen
    rw [hfalse]
    simp
  | cons c l' =>
    have hc : c ≠ backtick := h c l' rfl
    have hfalse : (ticksList (t + 1)).isPrefixOf (c :: l') = false := by
      rw [ticksList_succ, isPrefixOf_cons_eq, beq_backtick_false hc]
      simp
    unfold fenceMatchLen
    rw [hfalse]
    simp

theorem findFenceStart_append (t : Nat) (pre u : List Char) (hpre : backtick ∉ pre)
    (len : Nat) (hu : fenceMatchLen (t + 1) u = some len) :
    findFenceStart (t + 1) (pre ++ u) = some (pre.length, len) := by
  induction pre with
  | nil =>
    cases u with
    | nil =>
      rw [fenceMatchLen_none_of_head t [] (fun c l' e => absurd e (by simp))] at hu
      simp at hu
    | cons c r =>
      rw [List.nil_append, findFenceStart, hu]
      rfl
  | cons p pre' ih =>
    have hp : p ≠ backtick := fun e => hpre (by rw [e]; simp)
    rw [List.cons_append, findFenceStart,
      fenceMatchLen_none_of_head t _ (fun c l' e => by
        injection e with e1 _
        rw [← e1]
        exact hp)]
    dsimp only
    rw [ih (fun hm => hpre (List.mem_cons_of_mem p hm))]
    rfl

theorem findFenceStart_none_btfree (t : Nat) :
    ∀ s : List Char, backtick ∉ s → findFenceStart (t + 1) s = none := by
  intro s
  induction s with
  | nil => intro _; rfl
  | cons c rest ih =>
    intro h
    have hc : c ≠ backtick := fun e => h (by rw [e]; simp)
    rw [findFenceStart, fenceMatchLen_none_of_head t _ (fun c' l' e => by
      injection e with e1 _
      rw [← e1]
      exact hc)]
    dsimp only
    rw [ih (fun hm => h (List.mem_cons_of_mem c hm))]
    rfl

theorem replaceFences_nil (t fuel : Nat) : replaceFences t fuel [] = [] := by
  cases fuel <;> rfl

theorem replaceFences_id (t fuel : Nat) (s : List Char) (ht : 0 < t) (h : backtick ∉ s) :
    replaceFences t fuel s = s := by
  obtain ⟨k, rfl⟩ : ∃ k, t = k + 1 := ⟨t - 1, by omega⟩
  cases fuel with
  | zero => rfl
  | succ f =>
    rw [replaceFences, findFenceStart_none_btfree k s h]

theorem ticks4_isPrefixOf_of_ticks (t : Nat) (h4 : 4 ≤ t) (u : List Char)
    (h : (ticksList t).isPrefixOf u = true) : (ticksList 4).isPrefixOf u = true := by
  obtain ⟨k, rfl⟩ : ∃ k, t = 4 + k := ⟨t - 4, by omega⟩
  rw [show ticksList (4 + k) = ticksList 4 ++ ticksList k by
    simp [ticksList, List.replicate_add]] at h
  exact isPrefixOf_of_append _ _ u h

theorem findFenceStart_none_no4 (t : Nat) (h4 : 4 ≤ t) :
    ∀ s : List Char, (∀ i, (ticksList 4).isPrefixOf (s.drop i) = false) →
      findFenceStart t s = none := by
  intro s
  induction s with
  | nil => intro _; rfl
  | cons c rest ih =>
    intro h
    have hnone : fenceMatchLen t (c :: rest) = none := by
      have hfalse : (ticksList t).isPrefixOf (c :: rest) = false := by
        cases hp : (ticksList t).isPrefixOf (c :: rest) with
        | false => rfl
        | true =>
          have h4p := ticks4_isPrefixOf_of_ticks t h4 _ hp
          have h0 := h 0
          simp only [List.drop_zero] at h0
          rw [h0] at h4p
          exact absurd h4p (by simp)
      unfold fenceMatchLen
      rw [hfalse]
      simp
    rw [findFenceStart, hnone]
    dsimp only
    rw [ih (fun i => by simpa using h (i + 1))]
    rfl

theorem replaceFences_id_no4 (t fuel : Nat) (s : List Char) (h4 : 4 ≤ t)
    (h : ∀ i, (ticksList 4).isPrefixOf (s.drop i) = false) :
    replaceFences t fuel s = s := by
  cases fuel with
  | zero => rfl
  | succ f => rw [replaceFences, findFenceStart_none_no4 t h4 s h]

theorem replaceFences_remove_term (t fuel : Nat) (pre tag body rest : List Char)
    (hpre : backtick ∉ pre) (hnl : '\n' ∉ tag) (hb : backtick ∉ body) :
    replaceFences (t + 1) (fuel + 1)
        (pre ++ (ticksList (t + 1) ++
          (tag ++ '\n' :: (body ++ '\n' :: (ticksList (t + 1) ++ rest))))) =
      pre ++ replaceFences (t + 1) fuel rest := by
  rw [replaceFences, findFenceStart_append t pre _ hpre _
    (fenceMatchLen_terminated t tag body rest hnl hb)]
  dsimp only
  rw [List.take_left]
  congr 1
  congr 1
  rw [show pre ++ (ticksList (t + 1) ++
      (tag ++ '\n' :: (body ++ '\n' :: (ticksList (t + 1) ++ rest)))) =
      (pre ++ ticksList (t + 1) ++ tag ++ ['\n'] ++ body ++ ['\n'] ++ ticksList (t + 1)) ++ rest by
    simp]
  exact List.drop_left' (by simp [ticksList_length]; omega)

theorem replaceFences_remove_unterm (t fuel : Nat) (pre tag body : List Char)
    (hpre : backtick ∉ pre) (hnl : '\n' ∉ tag) (hb : backtick ∉ body) :
    replaceFences (t + 1) (fuel + 1)
        (pre ++ (ticksList (t + 1) ++ (tag ++ '\n' :: body))) = pre := by
  rw [replaceFences, findFenceStart_append t pre _ hpre _
    (fenceMatchLen_unterminated t tag body hnl hb)]
  dsimp only
  rw [List.take_left, List.drop_eq_nil_of_le (by simp [ticksList_length]; omega),
    replaceFences_nil, List.append_nil]

theorem head_ne_of_not_mem (l : List Char) (h : backtick ∉ l) :
    ∀ c l', l = c :: l' → c ≠ backtick := by
  intro c l' hl e
  apply h
  rw [hl, e]
  simp

theorem ticksConsNotPfx (k : Nat) (z : List Char)
    (hz : ∀ c l', z = c :: l' → c ≠ backtick) :
    ((backtick :: ticksList k) : List Char).isPrefixOf z = false := by
  cases z with
  | nil => rw [isPrefixOf_nil_right]
  | cons c l' =>
    rw [isPrefixOf_cons_eq, beq_backtick_false (hz c l' rfl)]
    simp

theorem no4_btfree (l : List Char) (h : backtick ∉ l) :
    ∀ i, (ticksList 4).isPrefixOf (l.drop i) = false := by
  intro i
  rw [show ticksList 4 = backtick :: ticksList 3 from rfl]
  exact ticksConsNotPfx 3 _ (head_ne_of_not_mem _ (fun hm => h (List.drop_subset i l hm)))

theorem no4_btfree_append (a z : List Char) (ha : backtick ∉ a)
    (hz : ∀ i, (ticksList 4).isPrefixOf (z.drop i) = false) :
    ∀ i, (ticksList 4).isPrefixOf ((a ++ z).drop i) = false := by
  intro i
  rcases Nat.lt_or_ge i a.length with hlt | hge
  · rw [List.drop_append_of_le_length (Nat.le_of_lt hlt)]
    obtain ⟨c, l', hc⟩ : ∃ c l', a.drop i = c :: l' := by
      cases hd : a.drop i with
      | nil =>
        have : (a.drop i).length = 0 := by rw [hd]; rfl
        rw [List.length_drop] at this
        omega
      | cons c l' => exact ⟨c, l', rfl⟩
    have hc1 : c ≠ backtick := by
      intro e
      apply ha
      apply List.drop_subset i a
      rw [hc, ← e]
      simp
    rw [hc, List.cons_append, show ticksList 4 = backtick :: ticksList 3 from rfl,
      isPrefixOf_cons_eq, beq_backtick_false hc1]
    simp
  · obtain ⟨k, rfl⟩ : ∃ k, i = a.length + k := ⟨i - a.length, by omega⟩
    rw [List.drop_append]
    exact hz k

theorem no4_run3 (z : List Char) (hz : ∀ c l', z = c :: l' → c ≠ backtick)
    (hno : ∀ i, (ticksList 4).isPrefixOf (z.drop i) = false) :
    ∀ i, (ticksList 4).isPrefixOf ((ticksList 3 ++ z).drop i) = false := by
  intro i
  rcases i with _ | (_ | (_ | k))
  · show (ticksList 4).isPrefixOf (backtick :: backtick :: backtick :: z) = false
    rw [show ticksList 4 = backtick :: backtick :: backtick :: backtick :: ([] : List Char)
      from rfl]
    simp only [isPrefixOf_cons_eq, beq_self_eq_true, Bool.true_and]
    exact ticksConsNotPfx 0 z hz
  · show (ticksList 4).isPrefixOf (backtick :: backtick :: z) = false
    rw [show ticksList 4 = backtick :: backtick :: backtick :: backtick :: ([] : List Char)
      from rfl]
    simp only [isPrefixOf_cons_eq, beq_self_eq_true, Bool.true_and]
    exact ticksConsNotPfx 1 z hz
  · show (ticksList 4).isPrefixOf (backtick :: z) = false
    rw [show ticksList 4 = backtick :: backtick :: backtick :: backtick :: ([] : List Char)
      from rfl]
    simp only [isPrefixOf_cons_eq, beq_self_eq_true, Bool.true_and]
    exact ticksConsNotPfx 2 z hz
  · have hdk : (ticksList 3 ++ z).drop (k + 3) = z.drop k := by
      rw [show k + 3 = (ticksList 3).length + k by simp [ticksList_length]; omega]
      exact List.drop_append k
    rw [hdk]
    exact hno k

theorem head_ne_backtick_append (tag : List Char) (X : List Char) (htag : backtick ∉ tag) :
    ∀ c l', tag ++ '\n' :: X = c :: l' → c ≠ backtick := by
  cases tag with
  | nil =>
    intro c l' h
    injection h with h1 _
    rw [← h1]
    decide
  | cons a tag' =>
    intro c l' h
    injection h with h1 _
    rw [← h1]
    intro e
    apply htag
    rw [e]
    simp

theorem no4_shape_term (pre tag body rest : List Char) (hpre : backtick ∉ pre)
    (htag : backtick ∉ tag) (hb : backtick ∉ body) (hrest : backtick ∉ rest) :
    ∀ i, (ticksList 4).isPrefixOf
      ((pre ++ (ticksList 3 ++
        (tag ++ '\n' :: (body ++ '\n' :: (ticksList 3 ++ rest))))).drop i) = false := by
  apply no4_btfree_append pre _ hpre
  apply no4_run3 _ (head_ne_backtick_append tag _ htag)
  apply no4_btfree_append tag _ htag
  apply no4_btfree_append ['\n'] _ (by decide)
  apply no4_btfree_append body _ hb
  apply no4_btfree_append ['\n'] _ (by decide)
  apply no4_run3 _ (head_ne_of_not_mem rest hrest)
  exact no4_btfree rest hrest

theorem no4_shape_unterm (pre tag body : List Char) (hpre : backtick ∉ pre)
    (htag : backtick ∉ tag) (hb : backtick ∉ body) :
    ∀ i, (ticksList 4).isPrefixOf
      ((pre ++ (ticksList 3 ++ (tag ++ '\n' :: body))).drop i) = false := by
  apply no4_btfree_append pre _ hpre
  apply no4_run3 _ (head_ne_backtick_append tag _ htag)
  apply no4_btfree_append tag _ htag
  apply no4_btfree_append ['\n'] _ (by decide)
  exact no4_btfree body hb

theorem removeFencedBlocks_eq_pass3 (s : List Char)
    (h : ∀ i, (ticksList 4).isPrefixOf (s.drop i) = false) :
    removeFencedBlocks s = replaceFences 3 (s.length + 1) s := by
  unfold removeFencedBlocks
  simp only [List.foldl_cons, List.foldl_nil]
  rw [replaceFences_id_no4 10 _ s (by omega) h,
    replaceFences_id_no4 9 _ s (by omega) h,
    replaceFences_id_no4 8 _ s (by omega) h,
    replaceFences_id_no4 7 _ s (by omega) h,
    replaceFences_id_no4 6 _ s (by omega) h,
    replaceFences_id_no4 5 _ s (by omega) h,
    replaceFences_id_no4 4 _ s (by omega) h]

theorem removeFencedBlocks_id (s : List Char) (h : backtick ∉ s) :
    removeFencedBlocks s = s := by
  rw [removeFencedBlocks_eq_pass3 s (no4_btfree s h),
    replaceFences_id 3 _ s (by omega) h]

theorem removeInlineCode_id (fuel : Nat) (s : List Char) (h : backtick ∉ s) :
    removeInlineCode fuel s = s := by
  cases fuel with
  | zero => rfl
  | succ f =>
    have hnone : s.findIdx? (fun c => decide (c = backtick)) = none :=
      List.findIdx?_eq_none_iff.mpr (fun x hx => by
        simp only [decide_eq_false_iff_not]
        exact fun e => h (e ▸ hx))
    rw [removeInlineCode, hnone]

theorem fER_terminated (pre tag body rest : List Char) (hpre : backtick ∉ pre)
    (htag : backtick ∉ tag) (hnl : '\n' ∉ tag) (hb : backtick ∉ body)
    (hrest : backtick ∉ rest) :
    findEmbeddedReferences
        ⟨pre ++ (ticksList 3 ++ (tag ++ '\n' :: (body ++ '\n' :: (ticksList 3 ++ rest))))⟩ =
      findEmbeddedReferences ⟨pre ++ rest⟩ := by
  have hPR : backtick ∉ pre ++ rest :=
    fun hm => (List.mem_append.mp hm).elim hpre hrest
  have hclean : removeFencedBlocks
      (pre ++ (ticksList 3 ++ (tag ++ '\n' :: (body ++ '\n' :: (ticksList 3 ++ rest))))) =
      pre ++ rest := by
    rw [removeFencedBlocks_eq_pass3 _ (no4_shape_term pre tag body rest hpre htag hb hrest),
      show (3 : Nat) = 2 + 1 from rfl,
      replaceFences_remove_term 2 _ pre tag body rest hpre hnl hb,
      replaceFences_id _ _ rest (by omega) hrest]
  have hclean2 : removeFencedBlocks (pre ++ rest) = pre ++ rest :=
    removeFencedBlocks_id _ hPR
  simp only [findEmbeddedReferences, strMk_data]
  rw [hclean, hclean2, removeInlineCode_id _ _ hPR, removeInlineCode_id _ _ hPR]

theorem fER_unterminated (pre tag body : List Char) (hpre : backtick ∉ pre)
    (htag : backtick ∉ tag) (hnl : '\n' ∉ tag) (hb : backtick ∉ body) :
    findEmbeddedReferences ⟨pre ++ (ticksList 3 ++ (tag ++ '\n' :: body))⟩ =
      findEmbeddedReferences ⟨pre⟩ := by
  have hclean : removeFencedBlocks (pre ++ (ticksList 3 ++ (tag ++ '\n' :: body))) = pre := by
    rw [removeFencedBlocks_eq_pass3 _ (no4_shape_unterm pre tag body hpre htag hb),
      show (3 : Nat) = 2 + 1 from rfl,
      replaceFences_remove_unterm 2 _ pre tag body hpre hnl hb]
  have hclean2 : removeFencedBlocks pre = pre := removeFencedBlocks_id _ hpre
  simp only [findEmbeddedReferences, strMk_data]
  rw [hclean, hclean2, removeInlineCode_id _ _ hpre, removeInlineCode_id _ _ hpre]

/-- Claim C5 (amended): findEmbeddedReferences removes fenced regions by one
global regex replacement per tick count from 10 down to 3.  Within a pass an
opener is an occurrence of that many backticks optionally followed by a
language tag up to the end of its line; the region ends at the earliest
following newline that is immediately followed by that many backticks —
whatever trails the closing run (a tag or further text) is left in place and
scanned — or extends to end-of-input when no such closer exists.  No
reference lying inside a removed region is returned, while references before
the opener and after the closing run are.  The closer match is a prefix
match: a longer tick run also closes, its surplus characters surviving the
pass. -/
theorem claim_C5_fence_removal :
    (∀ pre tag body rest : List Char, backtick ∉ pre → backtick ∉ tag → '\n' ∉ tag →
      backtick ∉ body → backtick ∉ rest →
      findEmbeddedReferences
          ⟨pre ++ (ticksList 3 ++ (tag ++ '\n' :: (body ++ '\n' :: (ticksList 3 ++ rest))))⟩ =
        findEmbeddedReferences ⟨pre ++ rest⟩) ∧
    (∀ pre tag body : List Char, backtick ∉ pre → backtick ∉ tag → '\n' ∉ tag →
      backtick ∉ body →
      findEmbeddedReferences ⟨pre ++ (ticksList 3 ++ (tag ++ '\n' :: body))⟩ =
        findEmbeddedReferences ⟨pre⟩) ∧
    replaceFences 3 20 ("```\nA\n````X\n§B").data = ("`X\n§B").data ∧
    findEmbeddedReferences "```\nA\n```js\n§APP.2\nrest" = ["§APP.2"] :=
  ⟨fun pre tag body rest h1 h2 h3 h4 h5 => fER_terminated pre tag body rest h1 h2 h3 h4 h5,
   fun pre tag body h1 h2 h3 h4 => fER_unterminated pre tag body h1 h2 h3 h4,
   by rfl, by rfl⟩

/-- Witness for C5: a tagged fence with a trailing-text closer hides §A.1 and
returns the references outside it; an unterminated fence hides everything
after the opener. -/
theorem claim_C5_witness :
    findEmbeddedReferences "A §B.2\n```js\n§A.1\n```end §C.3" = ["§B.2", "§C.3"] ∧
    findEmbeddedReferences "A §B.2\n```js\n§A.1 inside" = ["§B.2"] := by
  constructor
  · have h := claim_C5_fence_removal.1 ("A §B.2\n").data ("js").data ("§A.1").data
      ("end §C.3").data (by decide) (by decide) (by decide) (by decide) (by decide)
    have e : ("A §B.2\n```js\n§A.1\n```end §C.3" : String) =
        ⟨("A §B.2\n").data ++ (ticksList 3 ++ (("js").data ++ '\n' ::
          (("§A.1").data ++ '\n' :: (ticksList 3 ++ ("end §C.3").data))))⟩ := by rfl
    rw [e, h]
    rfl
  · have h := claim_C5_fence_removal.2.1 ("A §B.2\n").data ("js").data
      ("§A.1 inside").data (by decide) (by decide) (by decide) (by decide)
    have e : ("A §B.2\n```js\n§A.1 inside" : String) =
        ⟨("A §B.2\n").data ++ (ticksList 3 ++ (("js").data ++ '\n' :: ("§A.1 inside").data))⟩ := by
      rfl
    rw [e, h]
    rfl
